import Mathlib

/-!
Verification of the `eth-compress` JIT calldata compressor
(`src/jit-compressor.ts`, second variant: `_jitDecompressor` and
`compress_call`).

The development shallowly embeds the TypeScript source:
* 256-bit EVM words are `Nat` with explicit reduction modulo `2 ^ 256`;
* JS `Map` objects are association lists with insertion-order semantics
  (`set` keeps the position of an existing key, otherwise appends);
* JS arrays used as stacks (`push`/`pop`/`lastIndexOf`) are Lean lists with
  the top of the stack at the head;
* the distinction between JS `number` and `bigint` values is kept through the
  tagged type `JsNum`, because `pushN` uses a strict (type-sensitive)
  comparison against `trackedMemSize`;
* fallible or partial JS behaviour that the program never exercises
  (popping an empty stack) is modelled with a default value, and each such
  spot is marked with a comment.
-/

namespace EthCompress

/-! ## 256-bit arithmetic (bigint ops with the `& MASK32` reductions) -/

/-- `2 ^ 256`; source `MASK32 = (1n << 256n) - 1n` masks values to `M256 - 1`. -/
def M256 : Nat := 2 ^ 256

/-- Source `MAX_256_BIT = (1n << 256n) - 1n`. -/
def MAX_256_BIT : Nat := M256 - 1

/-- Source `MAX_128_BIT = (1n << 128n) - 1n`. -/
def MAX_128_BIT : Nat := 2 ^ 128 - 1

/-- `~a & MASK` on bigints: for `a < 2 ^ 256` this is `2 ^ 256 - 1 - a`. -/
def notW (a : Nat) : Nat := M256 - 1 - a % M256

/-- `(a & b) & MASK`. -/
def andW (a b : Nat) : Nat := Nat.land (a % M256) (b % M256)

/-- `(a | b) & MASK`. -/
def orW (a b : Nat) : Nat := Nat.lor (a % M256) (b % M256)

/-- `(a ^ b) & MASK`. -/
def xorW (a b : Nat) : Nat := Nat.xor (a % M256) (b % M256)

/-- `(value << shift) & MASK`. -/
def shlW (shift value : Nat) : Nat := value % M256 * 2 ^ shift % M256

/-- `(value >> shift) & MASK`. -/
def shrW (shift value : Nat) : Nat := value % M256 / 2 ^ shift

/-- `(a - b) & MASK`: two's-complement wraparound subtraction. -/
def subW (a b : Nat) : Nat := (a % M256 + (M256 - b % M256)) % M256

/-- Source `sigext`: sign-extend `value` from `byteSize + 1` bytes.  The
source computes `maskedVal | (~mask & MAX)` when the sign bit is set; since
`maskedVal < 2 ^ (8 * numBytes)` the `|` is addition of the disjoint high
part, written here with `+` and a truncated subtraction (which also matches
the source when `numBytes * 8 ≥ 256`, where the high part is empty). -/
def sigextW (byteSize value : Nat) : Nat :=
  let numBytes := byteSize + 1
  let maskedVal := value % M256 % 2 ^ (numBytes * 8)
  let signBit := 2 ^ (numBytes * 8 - 1)
  (if signBit ≤ maskedVal then maskedVal + (M256 - 2 ^ (numBytes * 8)) else maskedVal) % M256

/-- `roundUp32` from the source: `(x + 31) & ~31`. -/
def roundUp32 (x : Nat) : Nat := (x + 31) / 32 * 32

/-! ## Byte-string helpers -/

/-- Big-endian value of a byte list (`v = (v << 8n) | BigInt(b)` folded;
all producers of byte lists in this file yield bytes `< 256`, for which
`|` coincides with `+`). -/
def beVal (bytes : List Nat) : Nat := bytes.foldl (fun a b => a * 256 + b) 0

/-- Minimal big-endian byte decomposition (`while (v) { unshift(v & 0xff) }`);
empty for `0`.  The fuel of 64 bytes covers every value `< 2 ^ 512`; all
values pushed by the program are `< 2 ^ 256`. -/
def toBytesBEAux : Nat → Nat → List Nat
  | 0, _ => []
  | fuel + 1, v => if v = 0 then [] else toBytesBEAux fuel (v / 256) ++ [v % 256]

def toBytesBE (v : Nat) : List Nat := toBytesBEAux 64 v

/-- Fixed-width big-endian bytes (used by the EVM model for `MSTORE`). -/
def beBytes (k v : Nat) : List Nat :=
  (List.range k).map (fun i => v / 256 ^ (k - 1 - i) % 256)

/-! ## JS `Map` model: association list with insertion-order semantics -/

/-- `Map.set`: update in place if the key exists, else append. -/
def mapSet {K V : Type} [DecidableEq K] (m : List (K × V)) (k : K) (v : V) :
    List (K × V) :=
  if m.any (fun p => p.1 = k) then
    m.map (fun p => if p.1 = k then (k, v) else p)
  else m ++ [(k, v)]

/-- `Map.get`: `none` models JS `undefined`. -/
def mapGet? {K V : Type} [DecidableEq K] (m : List (K × V)) (k : K) : Option V :=
  (m.find? (fun p => p.1 = k)).map (fun p => p.2)

/-- `Map.has`. -/
def mapHas {K V : Type} [DecidableEq K] (m : List (K × V)) (k : K) : Bool :=
  m.any (fun p => p.1 = k)

/-- Source `ctr`: `m.set(k, (m.get(k) || 0) + delta)`. -/
def ctr {K : Type} [DecidableEq K] (m : List (K × Int)) (k : K) (delta : Int) :
    List (K × Int) :=
  mapSet m k (((mapGet? m k).getD 0) + delta)

/-! ## Hex strings -/

/-- Hex digit value of a char; `none` models a parse failure. -/
def hexDigit? (c : Char) : Option Nat :=
  if '0' ≤ c ∧ c ≤ '9' then some (c.toNat - 48)
  else if 'a' ≤ c ∧ c ≤ 'f' then some (c.toNat - 87)
  else if 'A' ≤ c ∧ c ≤ 'F' then some (c.toNat - 55)
  else none

/-- `Number.parseInt(c1 ++ c2, 16)` fed to a `Uint8Array` slot: JS `parseInt`
stops at the first invalid character, and `NaN` becomes `0`. -/
def parseHexByte (c1 c2 : Char) : Nat :=
  match hexDigit? c1 with
  | none => 0
  | some a =>
    match hexDigit? c2 with
    | none => a
    | some b => 16 * a + b

/-- `toLowerCase()` (character-wise, which is exact for the ASCII hex
alphabet this program manipulates). -/
def jsToLower (s : String) : String := ⟨s.data.map Char.toLower⟩

/-- Source `_normHex`: strip a literal leading `0x` (the regex is
case-sensitive, so `0X` is kept), then lower-case. -/
def _normHex (hex : String) : String :=
  jsToLower (if hex.data.take 2 = ['0', 'x'] then ⟨hex.data.drop 2⟩ else hex)

/-- Char pairs of a string, dropping an unpaired trailing char.  (On an
odd-length string the source throws constructing `new Uint8Array(len / 2)`;
no claim exercises that case.) -/
def charPairs : List Char → List (Char × Char)
  | c1 :: c2 :: rest => (c1, c2) :: charPairs rest
  | _ => []

/-- Source `_hexToUint8Array` on an already-normalised string. -/
def hexBytes (s : String) : List Nat :=
  (charPairs s.data).map (fun p => parseHexByte p.1 p.2)

def hexDigitChar (n : Nat) : Char :=
  if n < 10 then Char.ofNat (48 + n) else Char.ofNat (87 + n)

/-- Source `_uint8ArrayToHex`: `b.toString(16).padStart(2, '0')` per byte. -/
def _uint8ArrayToHex (bytes : List Nat) : String :=
  ⟨bytes.foldr (fun b acc => hexDigitChar (b / 16) :: hexDigitChar (b % 16) :: acc) []⟩

/-- Count non-overlapping, leftmost occurrences of `pat` in the char list
(the semantics of `str.match(new RegExp(pat, 'g'))` for a pattern with no
regex metacharacters, which is the case for hex strings).  The fuel
argument is the length of the scanned list. -/
def countOccsAux (pat : List Char) : Nat → List Char → Nat
  | 0, _ => 0
  | _, [] => 0
  | fuel + 1, c :: rest =>
    if pat.isPrefixOf (c :: rest) then
      1 + countOccsAux pat fuel ((c :: rest).drop pat.length)
    else countOccsAux pat fuel rest

/-- Source `cntWords(hex, wordHex)`. -/
def cntWords (hex wordHex : String) : Nat :=
  countOccsAux wordHex.data (hex.data.length + 1) hex.data

end EthCompress

namespace EthCompress

/-! ## JS value tags

`pushN` receives `number | bigint` values and its first peephole uses the
strict `value === trackedMemSize` comparison, which is type-sensitive
(`trackedMemSize` is a `number`).  `JsNum` keeps the tag. -/

inductive JsNum : Type
  | num : Nat → JsNum
  | big : Nat → JsNum
deriving DecidableEq, Repr

def JsNum.val : JsNum → Nat
  | .num n => n
  | .big n => n

/-- `value === trackedMemSize` (strict equality: a bigint is never
strictly equal to a number). -/
def JsNum.strictEqNum : JsNum → Nat → Prop
  | .num n, m => n = m
  | .big _, _ => False

instance (v : JsNum) (m : Nat) : Decidable (v.strictEqNum m) := by
  cases v <;> simp [JsNum.strictEqNum] <;> infer_instance

/-! ## The opcode emitter and symbolic stack tracker -/

/-- One emitted opcode with its immediate (`ops[i]` / `data[i]` in the
source are parallel arrays pushed in lockstep; pairing them is
equivalent). -/
structure Instr : Type where
  op : Nat
  imm : Option (List Nat)
deriving DecidableEq, Repr

/-- Emitter state of `_jitDecompressor`.  The symbolic stack has its top at
the head of the list (JS pushes/pops at the array end).  `dataFreq` from
the source is omitted: it is keyed by object identity and never read. -/
structure EmitState : Type where
  code : List Instr
  stack : List Nat
  trackedMemSize : Nat
  mem : List (Nat × Nat)
  firstPass : Bool
  opFreq : List (Nat × Int)
  stackFreq : List (Nat × Int)
  pushCounter : Nat
  stackCnt : List (Nat × Nat)
  /-- Ghost instrumentation (not in the source): the push counter at each
  value's FIRST appearance, recorded to state the claim about
  first-appearance ordering.  No program decision reads it. -/
  stackCntFirst : List (Nat × Nat)
deriving DecidableEq, Repr

def initState : EmitState :=
  { code := [], stack := [], trackedMemSize := 0, mem := [], firstPass := true,
    opFreq := [], stackFreq := [], pushCounter := 0, stackCnt := [],
    stackCntFirst := [] }

/-- `getStackIdx`: `stack.lastIndexOf(val)` converted to a distance from the
top (which, with the top at the head, is the first index from the head),
capped at 15. -/
def getStackIdx (stack : List Nat) (v : Nat) : Option Nat :=
  match stack.findIdx? (fun x => x = v) with
  | none => none
  | some i => if i > 15 then none else some i

/-- Source `pushS(v, freq)`: push on the symbolic stack, add `freq` to the
value's frequency counter, and record the (monotonically increasing) push
counter for the value — overwriting any earlier record. -/
def pushS (st : EmitState) (v : Nat) (freq : Int) : EmitState :=
  { st with
    stack := v :: st.stack
    stackFreq := ctr st.stackFreq v freq
    pushCounter := st.pushCounter + 1
    stackCnt := mapSet st.stackCnt v (st.pushCounter + 1)
    stackCntFirst :=
      if mapHas st.stackCntFirst v then st.stackCntFirst
      else mapSet st.stackCntFirst v (st.pushCounter + 1) }

/-- `pushOp` + `pushD` as one append of a paired instruction. -/
def emit (st : EmitState) (op : Nat) (imm : Option (List Nat)) : EmitState :=
  { st with code := st.code ++ [⟨op, imm⟩], opFreq := ctr st.opFreq op 1 }

/-- Source `trackMem`: the high-water mark is overwritten (not maxed). -/
def trackMem (st : EmitState) (offset size : Nat) : EmitState :=
  { st with trackedMemSize := roundUp32 (offset + size) }

/-- Pop the symbolic stack.  The program never pops an empty stack (the
proofs below always exhibit the concrete stack shape); `0` stands in for
the `undefined` the JS `pop()` would produce. -/
def popS (st : EmitState) : Nat × EmitState :=
  (st.stack.headD 0, { st with stack := st.stack.tail })

/-- Source `pop2`: `[stack.pop()!, stack.pop()!]` — top first. -/
def pop2S (st : EmitState) : Nat × Nat × EmitState :=
  (st.stack.headD 0, st.stack.tail.headD 0, { st with stack := st.stack.tail.tail })

/-- The `PUSH` branch of `addOp` (ops `0x5f … 0x7f`): constant rewrites
(`ADDRESS`/`CALLDATASIZE`/`MSIZE`), the `DUP` peephole, the all-ones
`PUSH0; NOT` rewrite, or the plain push. -/
def addOpPush (st : EmitState) (op : Nat) (imm : Option (List Nat)) : EmitState :=
  let v := beVal (imm.getD [])
  if v = 224 then emit (pushS st v 0) 0x30 none
  else if v = 32 then emit (pushS st v 0) 0x36 none
  else if v = st.trackedMemSize then emit (pushS st v 0) 0x59 none
  else
    match getStackIdx st.stack v with
    | some idx =>
      if op ≠ 0x5f then
        emit (pushS st v (if st.firstPass then 1 else -1)) (0x80 + idx) none
      else if v = MAX_256_BIT then
        emit (emit (pushS st v 1) 0x5f none) 0x19 none
      else emit (pushS st v 1) op imm
    | none =>
      if v = MAX_256_BIT then
        emit (emit (pushS st v 1) 0x5f none) 0x19 none
      else emit (pushS st v 1) op imm

/-- Source `addOp(op, imm?)`: the symbolic interpretation of one opcode,
followed by recording it (the `PUSH` family may record a rewritten
opcode instead). -/
def addOp (st : EmitState) (op : Nat) (imm : Option (List Nat)) : EmitState :=
  if op = 0x36 then emit (pushS st 32 0) op imm
  else if op = 0x59 then emit (pushS st st.trackedMemSize 0) op imm
  else if op = 0x0b then
    let (byteSize, val, st1) := pop2S st
    emit (pushS st1 (sigextW byteSize val) 1) op imm
  else if op = 0x19 then
    let (val, st1) := popS st
    emit (pushS st1 (notW val) 0) op imm
  else if op = 0x18 then
    let (a, b, st1) := pop2S st
    emit (pushS st1 (xorW a b) 1) op imm
  else if op = 0x16 then
    let (a, b, st1) := pop2S st
    emit (pushS st1 (andW a b) 1) op imm
  else if op = 0x03 then
    let (a, b, st1) := pop2S st
    emit (pushS st1 (subW a b) 1) op imm
  else if op = 0x1b then
    let (shift, val, st1) := pop2S st
    emit (pushS st1 (shlW shift val) 1) op imm
  else if op = 0x1c then
    let (shift, val, st1) := pop2S st
    emit (pushS st1 (shrW shift val) 1) op imm
  else if op = 0x17 then
    let (a, b, st1) := pop2S st
    emit (pushS st1 (orW a b) 1) op imm
  else if (0x60 ≤ op ∧ op ≤ 0x7f) ∨ op = 0x5f then addOpPush st op imm
  else if op = 0x51 then
    let (k, st1) := popS st
    emit (pushS st1 ((mapGet? st1.mem k).getD 0) 1) op imm
  else if op = 0x52 then
    let (offset, value, st1) := pop2S st
    emit (trackMem { st1 with mem := mapSet st1.mem offset (value % M256) } offset 32) op imm
  else if op = 0x53 then
    let (offset, _, st1) := pop2S st
    emit (trackMem st1 offset 1) op imm
  else if op = 0xf3 then
    let (_, _, st1) := pop2S st
    emit st1 op imm
  else emit st op imm

/-- Source `op(opcode)`. -/
def opE (st : EmitState) (opcode : Nat) : EmitState := addOp st opcode none

/-- Source `pushN(value)`; the first peephole only fires for number-typed
values strictly equal to `trackedMemSize`. -/
def pushN (st : EmitState) (value : JsNum) : EmitState :=
  if 0 < value.val ∧ value.strictEqNum st.trackedMemSize then addOp st 0x59 none
  else if value.val = 32 then addOp st 0x36 none
  else if value.val = 0 then addOp st 0x5f none
  else addOp st (0x5f + (toBytesBE value.val).length) (some (toBytesBE value.val))

/-- Source `pushB(buf)`. -/
def pushB (st : EmitState) (buf : List Nat) : EmitState :=
  addOp st (0x5f + buf.length) (some buf)

end EthCompress

namespace EthCompress

/-! ## The plan (language-neutral intermediate between the two passes) -/

inductive PlanStep : Type
  | num : JsNum → PlanStep
  | bytes : List Nat → PlanStep
  | op : Nat → PlanStep
deriving DecidableEq, Repr

/-- Replaying one plan step through the emitter (`emitPushN` / `emitPushB` /
`emitOp` run exactly these calls while also recording the step). -/
def applyStep (st : EmitState) : PlanStep → EmitState
  | .num v => pushN st v
  | .bytes b => pushB st b
  | .op o => opE st o

def applyPlan (st : EmitState) (plan : List PlanStep) : EmitState :=
  plan.foldl applyStep st

/-! ## The word planner (first pass) -/

/-- Non-zero segment scan of a 32-byte word: maximal runs of non-zero
bytes, as `(s, e)` inclusive index pairs. -/
def scanSegsGo : Nat → Option Nat → List Nat → List (Nat × Nat)
  | _, none, [] => []
  | i, some s, [] => [(s, i - 1)]
  | i, none, 0 :: rest => scanSegsGo (i + 1) none rest
  | i, none, _ :: rest => scanSegsGo (i + 1) (some i) rest
  | i, some s, 0 :: rest => (s, i - 1) :: scanSegsGo (i + 1) none rest
  | i, some s, _ :: rest => scanSegsGo (i + 1) (some s) rest

def scanSegs (word : List Nat) : List (Nat × Nat) := scanSegsGo 0 none word

/-- Source `estShlCost`. -/
def estShlCostAux : Bool → List (Nat × Nat) → Nat
  | _, [] => 0
  | first, (s, e) :: rest =>
    (1 + (e - s) + 1) + (if e < 31 then 3 else 0) + (if first then 0 else 1) +
      estShlCostAux false rest

def estShlCost (seg : List (Nat × Nat)) : Nat := estShlCostAux true seg

/-- `Math.ceil(Math.log2(base + 1) / 8)`: the least `k` with
`base + 1 ≤ 2 ^ (8 * k)` (exact for every base the program reaches). -/
def baseBytesOf (base : Nat) : Nat :=
  (((List.range 33).filter (fun k => base + 1 ≤ 2 ^ (8 * k))).headD 33)

/-- First `numBytes` in `1 .. litLen - 1` whose sign-extension reproduces
the literal (the source loop breaks at the first match). -/
def seFind (literalVal litLen : Nat) : Option Nat :=
  (List.range litLen).find? (fun numBytes =>
    decide (1 ≤ numBytes) &&
    (let truncated := literalVal % 2 ^ (numBytes * 8)
     decide (sigextW (numBytes - 1) truncated = literalVal ∧
       2 ^ (numBytes * 8 - 1) ≤ truncated)))

/-- SHIFT+NOT loop: shifts `8, 16, …, 248`, stopping at the first shift
that empties the value, keeping those whose reconstruction matches. -/
def snCandidatesAux (literalVal : Nat) : List Nat → List (Nat × Nat)
  | [] => []
  | s :: rest =>
    let shifted := shrW s literalVal
    if shifted = 0 then []
    else
      let notShifted := notW shifted
      (if shlW s notShifted = literalVal then [(s, notShifted)] else []) ++
        snCandidatesAux literalVal rest

def snCandidates (literalVal : Nat) : List (Nat × Nat) :=
  snCandidatesAux literalVal ((List.range 31).map (fun i => 8 * (i + 1)))

def mstore8Steps (base : Nat) (word : List Nat) (seg : List (Nat × Nat)) :
    List PlanStep :=
  (seg.map (fun p =>
    [PlanStep.num (.num (word.getD p.1 0)), PlanStep.num (.num (base + p.1)),
     PlanStep.op 0x53])).flatten

def shlOrStepsAux (word : List Nat) : Bool → List (Nat × Nat) → List PlanStep
  | _, [] => []
  | first, (s, e) :: rest =>
    ([PlanStep.bytes ((word.drop s).take (e + 1 - s))]
      ++ (if e < 31 then [PlanStep.num (.num ((31 - e) * 8)), PlanStep.op 0x1b] else [])
      ++ (if first then [] else [PlanStep.op 0x17]))
      ++ shlOrStepsAux word false rest

def shlOrSteps (word : List Nat) (seg : List (Nat × Nat)) : List PlanStep :=
  shlOrStepsAux word true seg

/-- The two word-reuse maps (`wordCache`, `wordCacheCost`), keyed by the
word's hex string; `-1` is the never-reuse sentinel. -/
structure PlanCaches : Type where
  wordCache : List (String × Nat)
  wordCacheCost : List (String × Int)
deriving DecidableEq, Repr

/-- The `bestCost` / `bestEmit` aggregation over the single-word peephole
families (literal, NOT, SUB, SIGNEXTEND, SHIFT+NOT), in source order. -/
def bestOf (literalVal : Nat) (literal : List Nat) : Nat × List PlanStep :=
  let literalCost := 1 + literal.length
  let notVal := notW literalVal
  let notBytes := 1 + (toBytesBE notVal).length
  let notCost := notBytes + 1
  let best0 : Nat × List PlanStep :=
    if literalVal = MAX_256_BIT then (2, [.num (.big notVal), .op 0x19])
    else (literalCost, [.bytes literal])
  let best1 := if notCost < best0.1 then
      (notCost, [PlanStep.num (.big notVal), PlanStep.op 0x19]) else best0
  let subVal := subW 0 literalVal
  let subBytesA := (toBytesBE subVal).length
  let subBytesB := if subBytesA = 0 then 1 else subBytesA
  let subBytes := if subVal = 1 ∨ subVal = 32 ∨ subVal = 224 then 1 else subBytesB
  let subCost := 1 + (1 + subBytes) + 1
  let best2 := if subCost < best1.1 then
      (subCost, [PlanStep.num (.num 0), PlanStep.num (.big subVal), PlanStep.op 0x03])
    else best1
  let best3 := match seFind literalVal literal.length with
    | some numBytes =>
      let truncated := literalVal % 2 ^ (numBytes * 8)
      let trueByteCost := if literalVal = 1 ∨ literalVal = 32 ∨ literalVal = 224
        then 1 else 1 + numBytes
      let signCost := trueByteCost + (1 + 1) + 1
      if signCost < best2.1 then
        (signCost, [PlanStep.num (.big truncated), PlanStep.num (.num (numBytes - 1)),
          PlanStep.op 0x0b])
      else best2
    | none => best2
  (snCandidates literalVal).foldl (fun best p =>
    let shiftedBytesA := (toBytesBE p.2).length
    let shiftedBytes := if shiftedBytesA = 0 then 1 else shiftedBytesA
    let shiftNotCost := 1 + shiftedBytes + 2 + 1 + 1
    if shiftNotCost < best.1 then
      (shiftNotCost, [PlanStep.num (.big p.2), PlanStep.num (.num p.1),
        PlanStep.op 0x1b, PlanStep.op 0x19])
    else best) best3

/-- Plan fragment for one 32-byte word, mirroring the body of the source's
first-pass loop.  Branch decisions read only the word, the scanned
segments, the hex string, and the caches — never the emitter state — so the
plan can be built separately from the emitter replay. -/
def wordPlanSteps (hex : String) (caches : PlanCaches) (base : Nat)
    (word : List Nat) : List PlanStep × PlanCaches :=
  let seg := scanSegs word
  if seg.isEmpty then ([], caches)
  else
    let s0 := (seg.headD (0, 0)).1
    let literal := word.drop s0
    let literalCost := 1 + literal.length
    let literalVal := beVal literal
    let baseBytes := baseBytesOf base
    let wordHex := _uint8ArrayToHex word
    let shlCost := estShlCost seg
    let inStack := literalVal = 1 ∨ literalVal = 32 ∨ literalVal = 224
    if inStack then
      ([.bytes literal, .num (.num base), .op 0x52], caches)
    else
      -- word-reuse cache: a hit (checked against the estimated reuse cost)
      -- takes the MLOAD/MSTORE path; a miss on an expensive literal records
      -- the word together with its estimated per-use cost or the sentinel
      let cacheHit := literalCost > 8 ∧ mapHas caches.wordCache wordHex = true ∧
        (literalCost : Int) > ((mapGet? caches.wordCacheCost wordHex).getD 0) + baseBytes
      if cacheHit then
        ([.num (.num ((mapGet? caches.wordCache wordHex).getD 0)), .op 0x51,
          .num (.num base), .op 0x52], caches)
      else
        let caches :=
          if literalCost > 8 ∧ mapHas caches.wordCache wordHex = false ∧
              mapGet? caches.wordCacheCost wordHex ≠ some (-1) then
            let reuseCost : Int := (baseBytes : Int) + 3
            let freq := cntWords hex wordHex
            { wordCache := mapSet caches.wordCache wordHex base,
              wordCacheCost := mapSet caches.wordCacheCost wordHex
                (if (freq : Int) * 32 > (freq : Int) * reuseCost then reuseCost else -1) }
          else caches
        let byte8s := seg.all (fun p => decide (p.1 = p.2))
        let byte8sCost := seg.length * 3
        let best4 := bestOf literalVal literal
        if byte8s = true ∧ byte8sCost < best4.1 ∧ byte8sCost ≤ shlCost then
          (mstore8Steps base word seg, caches)
        else if shlCost < best4.1 then
          (shlOrSteps word seg ++ [.num (.num base), .op 0x52], caches)
        else
          (best4.2 ++ [.num (.num base), .op 0x52], caches)

def buildPlanAux (hex : String) :
    PlanCaches → List (Nat × List Nat) → List PlanStep × PlanCaches
  | caches, [] => ([], caches)
  | caches, (base, word) :: rest =>
    let (steps, caches1) := wordPlanSteps hex caches base word
    let (steps2, caches2) := buildPlanAux hex caches1 rest
    (steps ++ steps2, caches2)

/-- 32-byte words of the padded buffer with their base offsets
(`for base = 0; base < n; base += 32`, each word zero-padded to 32). -/
def wordsOf (buf : List Nat) : List (Nat × List Nat) :=
  (List.range ((buf.length + 31) / 32)).map (fun k =>
    let w := (buf.drop (32 * k)).take 32
    (32 * k, w ++ List.replicate (32 - w.length) 0))

def buildPlan (hex : String) (buf : List Nat) : List PlanStep :=
  (buildPlanAux hex { wordCache := [], wordCacheCost := [] } (wordsOf buf)).1

/-! ## Pre-seeding and the second pass -/

/-- Stable insertion sort, descending in the recorded push counter: an
element moves ahead only of elements with a strictly smaller counter,
which is exactly the (stable) JS
`sort((a, b) => stackCnt.get(b[0]) - stackCnt.get(a[0]))`. -/
def insertByCnt (cnt : List (Nat × Nat)) (x : Nat × Int) :
    List (Nat × Int) → List (Nat × Int)
  | [] => [x]
  | y :: ys =>
    if (mapGet? cnt x.1).getD 0 > (mapGet? cnt y.1).getD 0 then x :: y :: ys
    else y :: insertByCnt cnt x ys

def sortByCntDesc (cnt : List (Nat × Nat)) : List (Nat × Int) → List (Nat × Int)
  | [] => []
  | x :: xs => insertByCnt cnt x (sortByCntDesc cnt xs)

/-- The pre-seed list pushed before the plan is replayed: frequency `> 1`,
value `> 1` and none of `32`, `224`; sorted descending by the recorded
push counter; then only values `≤ 2 ^ 128 - 1`; then the first 15.
(In the source's 128-bit filter the `typeof val === 'number'` arm is dead:
every `stackFreq` key is a bigint.) -/
def preseedEntries (st : EmitState) : List Nat :=
  ((((sortByCntDesc st.stackCnt
      (st.stackFreq.filter (fun p =>
        decide (1 < p.2) && decide (1 < p.1) && decide (p.1 ≠ 32) && decide (p.1 ≠ 224)))).filter
      (fun p => decide (p.1 ≤ MAX_128_BIT))).take 15).map (fun p => p.1))

/-- The pre-seed list as the specification words it: sorted descending by
*first*-appearance order (the ghost `stackCntFirst`).  Spec-side definition,
for comparison with `preseedEntries` only — the source sorts by `stackCnt`,
which is overwritten at every push. -/
def preseedEntriesFirst (st : EmitState) : List Nat :=
  ((((sortByCntDesc st.stackCntFirst
      (st.stackFreq.filter (fun p =>
        decide (1 < p.2) && decide (1 < p.1) && decide (p.1 ≠ 32) && decide (p.1 ≠ 224)))).filter
      (fun p => decide (p.1 ≤ MAX_128_BIT))).take 15).map (fun p => p.1))

/-- First pass over an (already normalised) hex string: the recorded plan
together with the emitter state after `pushN(1n)` and all plan emissions.
The source interleaves plan recording with these emitter calls; since no
branch decision reads the emitter state, running the emitter by replaying
the recorded plan is the same computation. -/
def jitPass1 (hex : String) : EmitState × List PlanStep :=
  let originalBuf := hexBytes hex
  let buf := List.replicate 28 0 ++ originalBuf
  let plan := buildPlan hex buf
  (applyPlan (pushN initState (.big 1)) plan, plan)

/-- Second pass: reset `ops`/`data`/`stack`/`trackedMemSize`/`mem` (the
frequency and counter maps are not reset), push the pre-seeds and `1n`,
replay the plan, then push the `CALL` argument prefix
(`PUSH0 retSize; PUSH0 retOffset; argsSize; argsOffset`). -/
def jitSecondPassState (hex : String) : EmitState :=
  let originalBuf := hexBytes hex
  let p := jitPass1 hex
  let st2 := { p.1 with code := [], stack := [], trackedMemSize := 0, mem := [] }
  let st3 := (preseedEntries p.1).foldl (fun st v => pushN st (.big v)) st2
  let st4 := pushN st3 (.big 1)
  let st5 := applyPlan st4 p.2
  let st6 := opE (opE st5 0x5f) 0x5f
  let st7 := pushN st6 (.num originalBuf.length)
  pushN st7 (.num 28)

/-- `out`: opcodes with their immediates (immediates only for
`PUSH1 … PUSH32`). -/
def instrBytes (i : Instr) : List Nat :=
  i.op :: (if 0x60 ≤ i.op ∧ i.op ≤ 0x7f then i.imm.getD [] else [])

def jitOutBytes (hex : String) : List Nat :=
  ((jitSecondPassState hex).code.map instrBytes).flatten

/-- The fixed 12-byte call-and-return trailer, as hex. -/
def jitTrailer : String := "345f355af13d5f5f3e3d5ff3"

/-- Source `_jitDecompressor`. -/
def _jitDecompressor (calldata : String) : String :=
  "0x" ++ _uint8ArrayToHex (jitOutBytes (_normHex calldata)) ++ jitTrailer

/-! ## Well-formedness predicates for the plan and the emitted code -/

/-- Well-formedness of one plan step: number-typed values below `bound`,
bigint-typed values below `2 ^ 256`, literals of at most 32 bytes, and only
the opcodes the planner ever records. -/
def stepOk (bound : Nat) : PlanStep → Prop
  | .num (.num k) => k < bound
  | .num (.big k) => k < M256
  | .bytes b => b.length ≤ 32
  | .op o => o ∈ ([0x51, 0x52, 0x53, 0x17, 0x19, 0x1b, 0x0b, 0x03] : List Nat)

instance (bound : Nat) : (s : PlanStep) → Decidable (stepOk bound s)
  | .num (.num k) => inferInstanceAs (Decidable (k < bound))
  | .num (.big k) => inferInstanceAs (Decidable (k < M256))
  | .bytes b => inferInstanceAs (Decidable (b.length ≤ 32))
  | .op o => inferInstanceAs (Decidable
      (o ∈ ([0x51, 0x52, 0x53, 0x17, 0x19, 0x1b, 0x0b, 0x03] : List Nat)))

/-- Every base offset recorded in the word-reuse cache is below `bound`. -/
def cacheOk (bound : Nat) (c : PlanCaches) : Prop :=
  ∀ p ∈ c.wordCache, p.2 < bound

/-- No `SWAP1` (`0x90`) among the emitted opcodes. -/
def noSwapCode (st : EmitState) : Prop := ∀ i ∈ st.code, i.op ≠ 0x90

/-! ## Candidate lists and first-minimum selection (for the cost claims)

Spec-side reformulation of the planner's choice: the candidates the code
actually compares, in the code's tie-preference order, and the
first-minimum selector. -/

/-- The `push_int(base); op(MSTORE)` finisher appended to every strategy
except pure MSTORE8 words. -/
def addTail (base : Nat) (c : Nat × List PlanStep) : Nat × List PlanStep :=
  (c.1, c.2 ++ [PlanStep.num (.num base), PlanStep.op 0x52])

/-- The peephole/literal candidates of the `bestCost`/`bestEmit` chain, in
source comparison order: literal (with the all-ones rewrite), NOT, SUB,
SIGNEXTEND (if found), then the SHIFT+NOT candidates. -/
def chainCandidates (lv : Nat) (literal : List Nat) : List (Nat × List PlanStep) :=
  (if lv = MAX_256_BIT then ((2 : Nat), [PlanStep.num (.big (notW lv)), PlanStep.op 0x19])
   else (1 + literal.length, [PlanStep.bytes literal])) ::
  (1 + (toBytesBE (notW lv)).length + 1,
    [PlanStep.num (.big (notW lv)), PlanStep.op 0x19]) ::
  (let subVal := subW 0 lv
   let subBytesA := (toBytesBE subVal).length
   let subBytesB := if subBytesA = 0 then 1 else subBytesA
   let subBytes := if subVal = 1 ∨ subVal = 32 ∨ subVal = 224 then 1 else subBytesB
   (1 + (1 + subBytes) + 1,
     [PlanStep.num (.num 0), PlanStep.num (.big subVal), PlanStep.op 0x03])) ::
  ((match seFind lv literal.length with
    | some numBytes =>
      [((if lv = 1 ∨ lv = 32 ∨ lv = 224 then 1 else 1 + numBytes) + (1 + 1) + 1,
        [PlanStep.num (.big (lv % 2 ^ (numBytes * 8))),
         PlanStep.num (.num (numBytes - 1)), PlanStep.op 0x0b])]
    | none => []) ++
  (snCandidates lv).map (fun p =>
    (1 + (if (toBytesBE p.2).length = 0 then 1 else (toBytesBE p.2).length) + 2 + 1 + 1,
     [PlanStep.num (.big p.2), PlanStep.num (.num p.1), PlanStep.op 0x1b,
      PlanStep.op 0x19])))

/-- All candidates compared in the non-reuse path of the word loop, in the
code's tie-preference order: the `bestCost` chain (each finished with the
MSTORE tail), then MSTORE8-per-byte (when every segment is a single byte),
then SHL/OR. -/
def wordCandidates (base : Nat) (word : List Nat) : List (Nat × List PlanStep) :=
  let seg := scanSegs word
  let literal := word.drop (seg.headD (0, 0)).1
  let lv := beVal literal
  (chainCandidates lv literal).map (addTail base)
  ++ (if seg.all (fun p => decide (p.1 = p.2)) then
        [(seg.length * 3, mstore8Steps base word seg)] else [])
  ++ [(estShlCost seg, shlOrSteps word seg ++ [PlanStep.num (.num base), PlanStep.op 0x52])]

/-- First occurrence of the minimum cost (later candidates must be strictly
cheaper to displace the incumbent). -/
def argminFirst : List (Nat × List PlanStep) → Nat × List PlanStep
  | [] => (0, [])
  | c :: cs => cs.foldl (fun best x => if x.1 < best.1 then x else best) c

end EthCompress

namespace EthCompress

/-! ## The payload rewriter (`compress_call`)

The RPC payload is modelled structurally: the call object carries the three
recognised keys plus a list of any other key names present (`Object.keys`
is only ever consulted through an order-independent `some`), and the
`params` array is modelled at the three positions the source reads.
`LibZip.flzCompress` / `LibZip.cdCompress` come from the external `solady`
package, declared out of scope by the spec; `compress_call` takes them as
black-box `String → String` parameters. -/

/-- Values stored in the state-override mapping: the decompressor entry
`{ code: bytecode }`, or any pre-existing JSON value (kept opaque). -/
inductive OvVal : Type
  | codeObj : String → OvVal
  | opaqueVal : Nat → OvVal
deriving DecidableEq, Repr

/-- The call-object keys the source reads, plus the names of any other
keys present on the object. -/
structure CallFields : Type where
  toA : Option String
  data : Option String
  fromF : Option String
  extraKeys : List String
deriving DecidableEq, Repr

def CallFields.keys (c : CallFields) : List String :=
  (if c.toA.isSome then ["to"] else []) ++ (if c.data.isSome then ["data"] else []) ++
    (if c.fromF.isSome then ["from"] else []) ++ c.extraKeys

/-- An RPC payload object: optional `method`, optional `params` (read at
positions 0, 1, 2), and — for the legacy shape where the call object is
passed directly — the call-object keys of the payload itself. -/
structure Payload : Type where
  method : Option String
  params : Option (Option CallFields × Option String × Option (List (String × OvVal)))
  call : CallFields
deriving DecidableEq, Repr

/-- `Object.keys(payload)` restricted to what the call-object gate
inspects: `method` and `params` count as keys when present, alongside the
call-object keys. -/
def Payload.txKeys (p : Payload) : List String :=
  (if p.method.isSome then ["method"] else []) ++
    (if p.params.isSome then ["params"] else []) ++ p.call.keys

/-- JS truthiness of an optional string (`undefined` and `''` are falsy). -/
def strTruthy (s : Option String) : Bool :=
  match s with
  | none => false
  | some t => !(t = "")

/-- `params?.[0] || payload`: the call object together with its key list.
When the fallback object is the payload itself, its `method`/`params` keys
are part of the key list. -/
def txObjOf (p : Payload) : CallFields × List String :=
  match p.params with
  | some (some c, _, _) => (c, c.keys)
  | some (none, _, _) => (p.call, p.txKeys)
  | none => (p.call, p.txKeys)

def MIN_SIZE_FOR_COMPRESSION : Nat := 1150
def DECOMPRESSOR_ADDRESS : String := "0x00000000000000000000000000000000000000e0"
def MULTICALL3_ADDRESS : String := "0xca11bde05977b3631167028862be2a173976ca11"

/-- `.padStart(64, '0')`. -/
def padStart64 (s : String) : String :=
  if s.length < 64 then String.mk (List.replicate (64 - s.length) '0') ++ s else s

/-- Source `flzFwdBytecode` (the fixed FastLZ forwarder template with the
target address spliced in). -/
def flzFwdBytecode (address : String) : String :=
  "0x365f73" ++ _normHex address ++
    "815b838110602f575f80848134865af1503d5f803e3d5ff35b803590815f1a8060051c908115609857600190600783149285831a6007018118840218600201948383011a90601f1660081b0101808603906020811860208211021890815f5b80830151818a015201858110609257505050600201019201916018565b82906075565b6001929350829150019101925f5b82811060b3575001916018565b85851060c1575b60010160a6565b936001818192355f1a878501530194905060ba56"

/-- Source `rleFwdBytecode` (the fixed calldata-RLE forwarder template). -/
def rleFwdBytecode (address : String) : String :=
  "0x5f5f5b368110602d575f8083813473" ++ _normHex address ++
    "5af1503d5f803e3d5ff35b600180820192909160031981019035185f1a8015604c57815301906002565b505f19815282820192607f9060031981019035185f1a818111156072575b160101906002565b838101368437606a56"

/-- `params?.[1]`. -/
def blockParamOf (p : Payload) : Option String :=
  match p.params with
  | some (_, b, _) => b
  | none => none

/-- `params?.[2]`. -/
def overridesOf (p : Payload) : Option (List (String × OvVal)) :=
  match p.params with
  | some (_, _, o) => o
  | none => none

/-- The rewritten payload built at the end of `compress_call`:
`{ ...payload, params: [{ ...txObj, to, data }, blockParam || 'latest',
{ ...overrides, [DECOMPRESSOR_ADDRESS]: { code: bytecode } }] }`. -/
def rewriteWith (payload : Payload) (txObj : CallFields) (blockParam : Option String)
    (overrides : Option (List (String × OvVal))) (bc cda : String) : Payload :=
  { payload with
    params := some
      (some { txObj with toA := some DECOMPRESSOR_ADDRESS, data := some cda },
       some (if strTruthy blockParam = true then blockParam.getD "latest" else "latest"),
       some (mapSet (overrides.getD []) DECOMPRESSOR_ADDRESS (OvVal.codeObj bc))) }

/-- `originalSize = txObj.data.length`. -/
def originalSizeOf (p : Payload) : Nat := ((txObjOf p).1.data.getD "").length

/-- `inputData = '0x' + _normHex(txObj.data)`. -/
def inputDataOf (p : Payload) : String := "0x" ++ _normHex ((txObjOf p).1.data.getD "")

/-- `to = txObj.to`. -/
def toAddrOf (p : Payload) : String := (txObjOf p).1.toA.getD ""

/-- The validation gate of `compress_call` (any failure returns the input):
block tag, state-override keys, presence of `to`/`data`, and no call-object
keys outside `to`/`data`/`from`. -/
def validationFails (p : Payload) : Prop :=
  (strTruthy (blockParamOf p) = true ∧ blockParamOf p ≠ some "latest")
    ∨ ((overridesOf p).isSome = true ∧
        (((overridesOf p).getD []).any
          (fun kv => jsToLower kv.1 ≠ jsToLower MULTICALL3_ADDRESS)) = true)
    ∨ strTruthy (txObjOf p).1.toA = false
    ∨ strTruthy (txObjOf p).1.data = false
    ∨ ((txObjOf p).2.any (fun k => ¬ (k = "to" ∨ k = "data" ∨ k = "from"))) = true

instance (p : Payload) : Decidable (validationFails p) := by
  unfold validationFails; infer_instance

/-- `flzData`: computed when requested or auto-selecting. -/
def flzDataOf (flz : String → String) (p : Payload) (alg : Option String) :
    Option String :=
  if alg = some "flz" ∨ alg = none then some (flz (inputDataOf p)) else none

/-- `cdData`: computed when requested, or when auto-selecting and the FLZ
result is truthy. -/
def cdDataOf (flz cd : String → String) (p : Payload) (alg : Option String) :
    Option String :=
  if alg = some "cd" ∨ (alg = none ∧ strTruthy (flzDataOf flz p alg) = true) then
    some (cd (inputDataOf p)) else none

/-- `useFlz`: requested, or auto-selected with the shorter output. -/
def useFlzOf (flz cd : String → String) (p : Payload) (alg : Option String) : Prop :=
  alg = some "flz" ∨ (alg = none ∧ strTruthy (flzDataOf flz p alg) = true ∧
    (strTruthy (cdDataOf flz cd p alg) = false ∨
      ((flzDataOf flz p alg).getD "").length < ((cdDataOf flz cd p alg).getD "").length))

instance (flz cd : String → String) (p : Payload) (alg : Option String) :
    Decidable (useFlzOf flz cd p alg) := by
  unfold useFlzOf; infer_instance

/-- Bytecode and rewritten-calldata selection
(JIT below 3000 or at/above 8000 characters when no hint is given,
otherwise the shorter of the two solady compressions, each paired with its
fixed forwarder). -/
def selectBytecode (flz cd : String → String) (p : Payload) (alg : Option String) :
    String × String :=
  if alg = some "jit" ∨ (alg = none ∧ (originalSizeOf p < 3000 ∨ 8000 ≤ originalSizeOf p)) then
    (_jitDecompressor (inputDataOf p), "0x" ++ padStart64 (_normHex (toAddrOf p)))
  else if useFlzOf flz cd p alg then
    (flzFwdBytecode (toAddrOf p), (flzDataOf flz p alg).getD "")
  else (rleFwdBytecode (toAddrOf p), (cdDataOf flz cd p alg).getD "")

/-- Source `compress_call(payload, alg?)`, parameterised by the two
external solady compressors. -/
def compress_call (flz cd : String → String) (payload : Payload)
    (alg : Option String) : Payload :=
  if strTruthy payload.method = true ∧ payload.method ≠ some "eth_call" then payload
  else if validationFails payload then payload
  else if originalSizeOf payload < MIN_SIZE_FOR_COMPRESSION then payload
  else if originalSizeOf payload ≤
      (selectBytecode flz cd payload alg).1.length +
        (selectBytecode flz cd payload alg).2.length then payload
  else
    rewriteWith payload (txObjOf payload).1 (blockParamOf payload) (overridesOf payload)
      (selectBytecode flz cd payload alg).1 (selectBytecode flz cd payload alg).2

end EthCompress

namespace EthCompress

/-! ## An EVM fragment: straight-line execution of the emitted opcodes

The synthesiser emits straight-line code (no jumps); this interpreter
covers exactly the opcodes the program emits plus the fixed trailer.
`CALL` failure is modelled as a hard error (the verified runs succeed). -/

structure EvmCtx : Type where
  calldata : List Nat
  address : Nat
  callvalue : Nat
  gas : Nat
deriving DecidableEq, Repr

structure EvmState : Type where
  stack : List Nat
  mem : List Nat
  ret : List Nat
deriving DecidableEq, Repr

inductive ExecRes : Type
  | ok : EvmState → ExecRes
  | ret : List Nat → ExecRes
  | err : ExecRes
deriving DecidableEq, Repr

/-- Memory expansion: `msize` (the model keeps `mem.length = msize`) grows
to the next multiple of 32 covering byte `n - 1`. -/
def memGrow (mem : List Nat) (n : Nat) : List Nat :=
  if mem.length < roundUp32 n then mem ++ List.replicate (roundUp32 n - mem.length) 0
  else mem

/-- Read `len` bytes at `off`, zero-padded past the end. -/
def memRead (mem : List Nat) (off len : Nat) : List Nat :=
  let r := (mem.drop off).take len
  r ++ List.replicate (len - r.length) 0

/-- Write `bytes` at `off` (with expansion); a zero-length write leaves
memory untouched. -/
def memWrite (mem : List Nat) (off : Nat) (bytes : List Nat) : List Nat :=
  if bytes.isEmpty then mem
  else
    let m := memGrow mem (off + bytes.length)
    m.take off ++ bytes ++ m.drop (off + bytes.length)

/-- One non-`CALL` opcode: `some (.inl _)` to continue, `some (.inr _)` on
`RETURN`, `none` on stack underflow or an unsupported opcode. -/
def evmStep (ctx : EvmCtx) (st : EvmState) (i : Instr) : Option (EvmState ⊕ List Nat) :=
  let op := i.op
  if op = 0x03 then match st.stack with
    | a :: b :: s => some (.inl { st with stack := subW a b :: s })
    | _ => none
  else if op = 0x0b then match st.stack with
    | a :: b :: s => some (.inl { st with stack := sigextW a b :: s })
    | _ => none
  else if op = 0x16 then match st.stack with
    | a :: b :: s => some (.inl { st with stack := andW a b :: s })
    | _ => none
  else if op = 0x17 then match st.stack with
    | a :: b :: s => some (.inl { st with stack := orW a b :: s })
    | _ => none
  else if op = 0x18 then match st.stack with
    | a :: b :: s => some (.inl { st with stack := xorW a b :: s })
    | _ => none
  else if op = 0x19 then match st.stack with
    | a :: s => some (.inl { st with stack := notW a :: s })
    | _ => none
  else if op = 0x1b then match st.stack with
    | a :: b :: s => some (.inl { st with stack := shlW a b :: s })
    | _ => none
  else if op = 0x1c then match st.stack with
    | a :: b :: s => some (.inl { st with stack := shrW a b :: s })
    | _ => none
  else if op = 0x30 then some (.inl { st with stack := ctx.address :: st.stack })
  else if op = 0x34 then some (.inl { st with stack := ctx.callvalue :: st.stack })
  else if op = 0x35 then match st.stack with
    | a :: s => some (.inl { st with stack := beVal (memRead ctx.calldata a 32) :: s })
    | _ => none
  else if op = 0x36 then some (.inl { st with stack := ctx.calldata.length :: st.stack })
  else if op = 0x37 then match st.stack with
    | dest :: off :: size :: s =>
      some (.inl
        { st with stack := s, mem := memWrite st.mem dest (memRead ctx.calldata off size) })
    | _ => none
  else if op = 0x3d then some (.inl { st with stack := st.ret.length :: st.stack })
  else if op = 0x3e then match st.stack with
    | dest :: off :: size :: s =>
      if off + size ≤ st.ret.length then
        some (.inl { st with stack := s, mem := memWrite st.mem dest (memRead st.ret off size) })
      else none
    | _ => none
  else if op = 0x51 then match st.stack with
    | a :: s =>
      let m := memGrow st.mem (a + 32)
      some (.inl { st with stack := beVal (memRead m a 32) :: s, mem := m })
    | _ => none
  else if op = 0x52 then match st.stack with
    | off :: v :: s => some (.inl { st with stack := s, mem := memWrite st.mem off (beBytes 32 v) })
    | _ => none
  else if op = 0x53 then match st.stack with
    | off :: v :: s => some (.inl { st with stack := s, mem := memWrite st.mem off [v % 256] })
    | _ => none
  else if op = 0x59 then some (.inl { st with stack := st.mem.length :: st.stack })
  else if op = 0x5a then some (.inl { st with stack := ctx.gas :: st.stack })
  else if op = 0x5f then some (.inl { st with stack := 0 :: st.stack })
  else if 0x60 ≤ op ∧ op ≤ 0x7f then
    some (.inl { st with stack := beVal (i.imm.getD []) :: st.stack })
  else if 0x80 ≤ op ∧ op ≤ 0x8f then match st.stack.get? (op - 0x80) with
    | some v => some (.inl { st with stack := v :: st.stack })
    | none => none
  else if op = 0xf3 then match st.stack with
    | off :: size :: _ => some (.inr (memRead (memGrow st.mem (off + size)) off size))
    | _ => none
  else none

/-- Straight-line runner (no `CALL`, no `RETURN` expected). -/
def runStraight (ctx : EvmCtx) : EvmState → List Instr → Option EvmState
  | st, [] => some st
  | st, i :: rest => match evmStep ctx st i with
    | some (.inl st2) => runStraight ctx st2 rest
    | _ => none

/-- Full runner for one frame, parameterised by the interpreter used for
sub-calls; `CALL` looks the callee code up by address. -/
def runList (sub : EvmCtx → EvmState → List Instr → ExecRes)
    (codeAt : Nat → List Instr) (ctx : EvmCtx) : EvmState → List Instr → ExecRes
  | st, [] => .ok st
  | st, i :: rest =>
    if i.op = 0xf1 then
      match st.stack with
      | _gas :: addr :: value :: inOff :: inSize :: outOff :: outSize :: s =>
        let mem1 := if inSize = 0 then st.mem else memGrow st.mem (inOff + inSize)
        let input := memRead mem1 inOff inSize
        match sub { calldata := input, address := addr, callvalue := value, gas := ctx.gas }
            { stack := [], mem := [], ret := [] } (codeAt addr) with
        | .ret out =>
          let mem2 := if outSize = 0 then mem1 else memGrow mem1 (outOff + outSize)
          runList sub codeAt ctx
            { stack := 1 :: s, mem := memWrite mem2 outOff (out.take outSize), ret := out } rest
        | .ok _ =>
          let mem2 := if outSize = 0 then mem1 else memGrow mem1 (outOff + outSize)
          runList sub codeAt ctx { stack := 1 :: s, mem := mem2, ret := [] } rest
        | .err => .err
      | _ => .err
    else
      match evmStep ctx st i with
      | some (.inl st2) => runList sub codeAt ctx st2 rest
      | some (.inr bytes) => .ret bytes
      | none => .err

/-- Depth-limited interpreter: the fuel bounds the `CALL` depth only. -/
def execDepth (codeAt : Nat → List Instr) : Nat → EvmCtx → EvmState → List Instr → ExecRes
  | 0, _, _, _ => .err
  | fuel + 1, ctx, st, code => runList (execDepth codeAt fuel) codeAt ctx st code

/-- The echo contract `0x365f5f37365ff3`:
`CALLDATASIZE; PUSH0; PUSH0; CALLDATACOPY; CALLDATASIZE; PUSH0; RETURN`. -/
def echoCode : List Instr :=
  [⟨0x36, none⟩, ⟨0x5f, none⟩, ⟨0x5f, none⟩, ⟨0x37, none⟩,
   ⟨0x36, none⟩, ⟨0x5f, none⟩, ⟨0xf3, none⟩]

/-! ## Emitter calls (the interface exercised by the invariant claims) -/

inductive EmitCall : Type
  | pushNum : JsNum → EmitCall
  | pushBytes : List Nat → EmitCall
  | callOp : Nat → EmitCall
deriving DecidableEq, Repr

def applyCall (st : EmitState) : EmitCall → EmitState
  | .pushNum v => pushN st v
  | .pushBytes b => pushB st b
  | .callOp o => opE st o

def applyCalls (st : EmitState) (l : List EmitCall) : EmitState := l.foldl applyCall st

/-- Operand count of the tracked non-push opcodes. -/
def opArity (o : Nat) : Nat :=
  if o = 0x19 ∨ o = 0x51 then 1
  else if o = 0x03 ∨ o = 0x0b ∨ o = 0x16 ∨ o = 0x17 ∨ o = 0x18 ∨ o = 0x1b ∨
    o = 0x1c ∨ o = 0x52 ∨ o = 0x53 then 2
  else 0

/-- The emitter's preconditions for one call: push values in range, literal
widths encodable as `PUSH1..PUSH32`, opcodes from the tracked non-terminal
set with enough operands on the symbolic stack. -/
def callOk (st : EmitState) : EmitCall → Prop
  | .pushNum v => v.val < M256
  | .pushBytes b => 0 < b.length ∧ b.length ≤ 32
  | .callOp o =>
    o ∈ ([0x36, 0x59, 0x03, 0x0b, 0x16, 0x17, 0x18, 0x19, 0x1b, 0x1c,
      0x51, 0x52, 0x53] : List Nat) ∧ opArity o ≤ st.stack.length

def callsOk : EmitState → List EmitCall → Prop
  | _, [] => True
  | st, c :: cs => callOk st c ∧ callsOk (applyCall st c) cs

instance (st : EmitState) : (c : EmitCall) → Decidable (callOk st c)
  | .pushNum v => inferInstanceAs (Decidable (v.val < M256))
  | .pushBytes b => inferInstanceAs (Decidable (0 < b.length ∧ b.length ≤ 32))
  | .callOp o => inferInstanceAs (Decidable
      (o ∈ ([0x36, 0x59, 0x03, 0x0b, 0x16, 0x17, 0x18, 0x19, 0x1b, 0x1c,
        0x51, 0x52, 0x53] : List Nat) ∧ opArity o ≤ st.stack.length))

instance instDecCallsOk : (st : EmitState) → (l : List EmitCall) → Decidable (callsOk st l)
  | _, [] => .isTrue trivial
  | st, c :: cs =>
    have : Decidable (callsOk (applyCall st c) cs) := instDecCallsOk (applyCall st c) cs
    inferInstanceAs (Decidable (callOk st c ∧ callsOk (applyCall st c) cs))

end EthCompress

namespace EthCompress

/-- **C5.** For every input, the synthesised bytecode string is some body
followed by exactly the hex of the 12 fixed trailer bytes
`34 5f 35 5a f1 3d 5f 5f 3e 3d 5f f3` (`CALLVALUE; PUSH0; CALLDATALOAD;
GAS; CALL; RETURNDATASIZE; PUSH0; PUSH0; RETURNDATACOPY; RETURNDATASIZE;
PUSH0; RETURN`). -/
theorem C5_jit_trailer (calldata : String) :
    _jitDecompressor calldata =
      ("0x" ++ _uint8ArrayToHex (jitOutBytes (_normHex calldata))) ++
        _uint8ArrayToHex [0x34, 0x5f, 0x35, 0x5a, 0xf1, 0x3d, 0x5f, 0x5f, 0x3e, 0x3d, 0x5f, 0xf3] := by
  rw [show _uint8ArrayToHex [0x34, 0x5f, 0x35, 0x5a, 0xf1, 0x3d, 0x5f, 0x5f, 0x3e, 0x3d, 0x5f, 0xf3]
      = jitTrailer from by decide]
  rfl

/-- **C2.** `compress_call` either returns the input payload itself, or a
rewritten payload built from a bytecode and a rewritten calldata whose
combined length is strictly below the length of the original `data`
field. -/
theorem C2_non_expansion (flz cd : String → String) (p : Payload) (alg : Option String) :
    compress_call flz cd p alg = p ∨
    ∃ bc cda : String,
      compress_call flz cd p alg =
        rewriteWith p (txObjOf p).1 (blockParamOf p) (overridesOf p) bc cda ∧
      bc.length + cda.length < ((txObjOf p).1.data.getD "").length := by
  unfold compress_call
  split_ifs with h1 h2 h3 h4
  · exact Or.inl rfl
  · exact Or.inl rfl
  · exact Or.inl rfl
  · exact Or.inl rfl
  · exact Or.inr ⟨_, _, rfl, by
      simp only [originalSizeOf] at h4
      omega⟩

end EthCompress
namespace EthCompress

/-- **C10.** A legacy-shape payload — the call object passed directly with
a top-level `method` key and no `params` — is returned unchanged: the
extra-keys gate admits only `to`/`data`/`from` on the call object and the
`method` key then counts as an extra key. -/
theorem C10_legacy_shape (flz cd : String → String) (p : Payload) (alg : Option String)
    (h1 : p.params = none) (h2 : p.method.isSome = true) :
    compress_call flz cd p alg = p := by
  have hv : validationFails p := by
    unfold validationFails
    refine Or.inr (Or.inr (Or.inr (Or.inr ?_)))
    simp only [txObjOf, h1, Payload.txKeys, h2, if_true]
    simp
  unfold compress_call
  split_ifs <;> rfl

theorem C10_legacy_shape_witness :
    (let p : Payload :=
      { method := some "eth_call", params := none,
        call := { toA := some "0x1111111111111111111111111111111111111111",
                  data := some "0x22222222", fromF := none, extraKeys := [] } }
     p.params = none ∧ p.method.isSome = true ∧
       compress_call (fun _ => "0xaa") (fun _ => "0xbb") p (some "jit") = p) := by
  refine ⟨rfl, rfl, C10_legacy_shape _ _ _ _ rfl rfl⟩

/-- **C3 (amended).** `compress_call` returns the input payload itself
whenever the `data` field's string length (including any `0x` prefix) is
below 1150, or `method` is present, non-empty and not `eth_call`, or
`params[1]` is present, non-empty and not `"latest"`, or `params[2]`
contains a key whose lower-casing differs from the Multicall3 address —
regardless of any algorithm hint. -/
theorem C3_ineligible_unchanged (flz cd : String → String) (p : Payload)
    (alg : Option String)
    (h : originalSizeOf p < MIN_SIZE_FOR_COMPRESSION
      ∨ (strTruthy p.method = true ∧ p.method ≠ some "eth_call")
      ∨ (strTruthy (blockParamOf p) = true ∧ blockParamOf p ≠ some "latest")
      ∨ (((overridesOf p).getD []).any
          (fun kv => jsToLower kv.1 ≠ jsToLower MULTICALL3_ADDRESS)) = true) :
    compress_call flz cd p alg = p := by
  unfold compress_call
  split_ifs with hm hv h3 h4
  · rfl
  · rfl
  · rfl
  · rfl
  · exfalso
    rcases h with h | h | h | h
    · exact h3 h
    · exact hm h
    · exact hv (Or.inl h)
    · refine hv (Or.inr (Or.inl ?_))
      rcases ho : overridesOf p with _ | l
      · rw [ho] at h; simp at h
      · rw [ho] at h
        exact ⟨rfl, h⟩

set_option maxRecDepth 100000 in
/-- **C3 (counterexample to the claim as stated).** A payload whose `data`
hex digits number 1148 (< 1150) but whose raw `data` string has length
1150 (the `0x` prefix is counted by the gate) is rewritten, not returned
unchanged. -/
theorem C3_counterexample :
    (let p : Payload :=
      { method := some "eth_call",
        params := some (some { toA := some "0x1111111111111111111111111111111111111111",
                               data := some ("0x" ++ String.mk (List.replicate 1148 '0')),
                               fromF := none, extraKeys := [] }, some "latest", none),
        call := { toA := none, data := none, fromF := none, extraKeys := [] } }
     (_normHex ((txObjOf p).1.data.getD "")).length < 1150 ∧
       compress_call (fun _ => "") (fun _ => "") p none ≠ p) := by
  decide

theorem C3_ineligible_witness :
    (let p : Payload :=
      { method := some "eth_sendTransaction", params := none,
        call := { toA := some "0x1111111111111111111111111111111111111111",
                  data := some ("0x" ++ String.mk (List.replicate 2000 '0')),
                  fromF := none, extraKeys := [] } }
     (strTruthy p.method = true ∧ p.method ≠ some "eth_call") ∧
       compress_call (fun _ => "0xaa") (fun _ => "0xbb") p (some "jit") = p) := by
  refine ⟨⟨by decide, by decide⟩,
    C3_ineligible_unchanged _ _ _ _ (Or.inr (Or.inl ⟨by decide, by decide⟩))⟩

end EthCompress
namespace EthCompress

/-- **C4.** When `params[2]`'s only entry is the Multicall3 key and
`compress_call` rewrites the payload, the resulting `params[2]` holds
exactly the original Multicall3 entry (key and value unchanged) followed
by the new decompressor entry whose code is the synthesised or forwarder
bytecode — and nothing else. -/
theorem C4_merge_preservation (flz cd : String → String) (p : Payload)
    (alg : Option String) (k : String) (v : OvVal)
    (hov : overridesOf p = some [(k, v)])
    (hne : compress_call flz cd p alg ≠ p) :
    ∃ bc : String,
      (bc = _jitDecompressor (inputDataOf p) ∨ bc = flzFwdBytecode (toAddrOf p)
        ∨ bc = rleFwdBytecode (toAddrOf p)) ∧
      overridesOf (compress_call flz cd p alg) =
        some [(k, v), (DECOMPRESSOR_ADDRESS, OvVal.codeObj bc)] := by
  unfold compress_call at hne ⊢
  split_ifs at hne ⊢ with hm hv h3 h4
  · exact absurd rfl hne
  · exact absurd rfl hne
  · exact absurd rfl hne
  · exact absurd rfl hne
  · have hkmc : jsToLower k = jsToLower MULTICALL3_ADDRESS := by
      by_contra hk
      refine hv (Or.inr (Or.inl ⟨by rw [hov]; rfl, ?_⟩))
      rw [hov]
      simp [hk]
    have hkD : k ≠ DECOMPRESSOR_ADDRESS := by
      intro he
      rw [he] at hkmc
      exact absurd hkmc (by decide)
    refine ⟨(selectBytecode flz cd p alg).1, ?_, ?_⟩
    · unfold selectBytecode
      split_ifs
      · exact Or.inl rfl
      · exact Or.inr (Or.inl rfl)
      · exact Or.inr (Or.inr rfl)
    · rw [show overridesOf (rewriteWith p (txObjOf p).1 (blockParamOf p) (overridesOf p)
            (selectBytecode flz cd p alg).1 (selectBytecode flz cd p alg).2) =
          some (mapSet ((overridesOf p).getD []) DECOMPRESSOR_ADDRESS
            (OvVal.codeObj (selectBytecode flz cd p alg).1)) from rfl, hov]
      simp [mapSet, hkD]


set_option maxRecDepth 100000 in
theorem C4_merge_preservation_witness :
    (let p : Payload :=
      { method := some "eth_call",
        params := some
          (some { toA := some "0x1111111111111111111111111111111111111111",
                  data := some ("0x" ++ String.mk (List.replicate 1150 'a')),
                  fromF := none, extraKeys := [] },
           some "latest",
           some [("0xca11bde05977b3631167028862be2a173976ca11", OvVal.opaqueVal 7)]) ,
        call := { toA := none, data := none, fromF := none, extraKeys := [] } }
     overridesOf p =
        some [("0xca11bde05977b3631167028862be2a173976ca11", OvVal.opaqueVal 7)] ∧
       compress_call (fun _ => "0xab") (fun _ => "0xcd") p (some "flz") ≠ p ∧
       ∃ bc : String,
         (bc = _jitDecompressor (inputDataOf p) ∨ bc = flzFwdBytecode (toAddrOf p)
           ∨ bc = rleFwdBytecode (toAddrOf p)) ∧
         overridesOf (compress_call (fun _ => "0xab") (fun _ => "0xcd") p (some "flz")) =
           some [("0xca11bde05977b3631167028862be2a173976ca11", OvVal.opaqueVal 7),
                 (DECOMPRESSOR_ADDRESS, OvVal.codeObj bc)]) := by
  refine ⟨rfl, by decide, C4_merge_preservation _ _ _ _ _ _ rfl (by decide)⟩

end EthCompress

namespace EthCompress

/-! ## Small facts about the emitter used by several claims -/

theorem getStackIdx_le15 {stack : List Nat} {v idx : Nat}
    (h : getStackIdx stack v = some idx) : idx ≤ 15 := by
  unfold getStackIdx at h
  split at h
  · cases h
  · split at h
    · cases h
    · cases h; omega

theorem toBytesBEAux_length_le (fuel : Nat) : ∀ (v k : Nat), k ≤ fuel → v < 256 ^ k →
    (toBytesBEAux fuel v).length ≤ k := by
  induction fuel with
  | zero => intro v k _ _; simp [toBytesBEAux]
  | succ n ih =>
    intro v k hk hv
    by_cases h0 : v = 0
    · simp [toBytesBEAux, h0]
    · cases k with
      | zero => exact absurd (Nat.lt_one_iff.mp (by simpa using hv)) h0
      | succ k' =>
        have hd : v / 256 < 256 ^ k' := by
          rw [Nat.div_lt_iff_lt_mul (by norm_num)]
          calc v < 256 ^ (k' + 1) := hv
          _ = 256 ^ k' * 256 := by ring
        have := ih (v / 256) k' (by omega) hd
        simp only [toBytesBEAux, if_neg h0, List.length_append, List.length_cons,
          List.length_nil]
        omega

theorem toBytesBE_length_le {v k : Nat} (hk : k ≤ 64) (hv : v < 256 ^ k) :
    (toBytesBE v).length ≤ k :=
  toBytesBEAux_length_le 64 v k hk hv

@[simp] theorem emit_firstPass (st : EmitState) (op : Nat) (imm : Option (List Nat)) :
    (emit st op imm).firstPass = st.firstPass := rfl

@[simp] theorem pushS_firstPass (st : EmitState) (v : Nat) (f : Int) :
    (pushS st v f).firstPass = st.firstPass := rfl

@[simp] theorem trackMem_firstPass (st : EmitState) (a b : Nat) :
    (trackMem st a b).firstPass = st.firstPass := rfl

@[simp] theorem popS_firstPass (st : EmitState) :
    (popS st).2.firstPass = st.firstPass := rfl

@[simp] theorem pop2S_firstPass (st : EmitState) :
    (pop2S st).2.2.firstPass = st.firstPass := rfl

theorem addOpPush_firstPass (st : EmitState) (op : Nat) (imm : Option (List Nat)) :
    (addOpPush st op imm).firstPass = st.firstPass := by
  unfold addOpPush
  dsimp only
  repeat' split
  all_goals simp only [apply_ite EmitState.firstPass, emit_firstPass, pushS_firstPass]

theorem addOp_firstPass (st : EmitState) (op : Nat) (imm : Option (List Nat)) :
    (addOp st op imm).firstPass = st.firstPass := by
  unfold addOp
  rcases eq_or_ne op 0x36 with h | h1
  · subst h; rfl
  rw [if_neg h1]
  rcases eq_or_ne op 0x59 with h | h2
  · subst h; simp only [if_pos rfl]; rfl
  rw [if_neg h2]
  rcases eq_or_ne op 0x0b with h | h3
  · subst h; simp only [if_pos rfl]; rfl
  rw [if_neg h3]
  rcases eq_or_ne op 0x19 with h | h4
  · subst h; simp only [if_pos rfl]; rfl
  rw [if_neg h4]
  rcases eq_or_ne op 0x18 with h | h5
  · subst h; simp only [if_pos rfl]; rfl
  rw [if_neg h5]
  rcases eq_or_ne op 0x16 with h | h6
  · subst h; simp only [if_pos rfl]; rfl
  rw [if_neg h6]
  rcases eq_or_ne op 0x03 with h | h7
  · subst h; simp only [if_pos rfl]; rfl
  rw [if_neg h7]
  rcases eq_or_ne op 0x1b with h | h8
  · subst h; simp only [if_pos rfl]; rfl
  rw [if_neg h8]
  rcases eq_or_ne op 0x1c with h | h9
  · subst h; simp only [if_pos rfl]; rfl
  rw [if_neg h9]
  rcases eq_or_ne op 0x17 with h | h10
  · subst h; simp only [if_pos rfl]; rfl
  rw [if_neg h10]
  by_cases hp : (0x60 ≤ op ∧ op ≤ 0x7f) ∨ op = 0x5f
  · rw [if_pos hp]
    exact addOpPush_firstPass st op imm
  rw [if_neg hp]
  rcases eq_or_ne op 0x51 with h | h11
  · subst h; simp only [if_pos rfl]; rfl
  rw [if_neg h11]
  rcases eq_or_ne op 0x52 with h | h12
  · subst h; simp only [if_pos rfl]; rfl
  rw [if_neg h12]
  rcases eq_or_ne op 0x53 with h | h13
  · subst h; simp only [if_pos rfl]; rfl
  rw [if_neg h13]
  rcases eq_or_ne op 0xf3 with h | h14
  · subst h; simp only [if_pos rfl]; rfl
  rw [if_neg h14]
  rfl
end EthCompress

namespace EthCompress

@[simp] theorem emit_code (st : EmitState) (op : Nat) (imm : Option (List Nat)) :
    (emit st op imm).code = st.code ++ [⟨op, imm⟩] := rfl

@[simp] theorem pushS_code (st : EmitState) (v : Nat) (f : Int) :
    (pushS st v f).code = st.code := rfl

@[simp] theorem trackMem_code (st : EmitState) (a b : Nat) :
    (trackMem st a b).code = st.code := rfl

/-- `addOp` dispatches `PUSH0 … PUSH32` (and would dispatch up to `0x7f`)
to the `PUSH` branch. -/
theorem addOp_push (st : EmitState) (op : Nat) (imm : Option (List Nat))
    (h : (0x60 ≤ op ∧ op ≤ 0x7f) ∨ op = 0x5f) :
    addOp st op imm = addOpPush st op imm := by
  unfold addOp
  rw [if_neg (by omega : ¬op = 0x36), if_neg (by omega : ¬op = 0x59),
    if_neg (by omega : ¬op = 0x0b), if_neg (by omega : ¬op = 0x19),
    if_neg (by omega : ¬op = 0x18), if_neg (by omega : ¬op = 0x16),
    if_neg (by omega : ¬op = 0x03), if_neg (by omega : ¬op = 0x1b),
    if_neg (by omega : ¬op = 0x1c), if_neg (by omega : ¬op = 0x17),
    if_pos h]

/-- Every instruction appended by the `PUSH` branch is the (push) opcode
itself, one of the fixed rewrites, or a `DUP1 … DUP16`. -/
theorem addOpPush_code (st : EmitState) (op : Nat) (imm : Option (List Nat)) :
    ∃ Δ : List Instr, (addOpPush st op imm).code = st.code ++ Δ ∧
      ∀ i ∈ Δ, i.op = op ∨ i.op = 0x30 ∨ i.op = 0x36 ∨ i.op = 0x59 ∨
        i.op = 0x5f ∨ i.op = 0x19 ∨ ∃ idx, idx ≤ 15 ∧ i.op = 0x80 + idx := by
  unfold addOpPush
  dsimp only
  by_cases h224 : beVal (imm.getD []) = 224
  · rw [if_pos h224]
    exact ⟨[⟨0x30, none⟩], by simp, by
      intro i hi; simp only [List.mem_singleton] at hi; subst hi; simp⟩
  rw [if_neg h224]
  by_cases h32 : beVal (imm.getD []) = 32
  · rw [if_pos h32]
    exact ⟨[⟨0x36, none⟩], by simp, by
      intro i hi; simp only [List.mem_singleton] at hi; subst hi; simp⟩
  rw [if_neg h32]
  by_cases htms : beVal (imm.getD []) = st.trackedMemSize
  · rw [if_pos htms]
    exact ⟨[⟨0x59, none⟩], by simp, by
      intro i hi; simp only [List.mem_singleton] at hi; subst hi; simp⟩
  rw [if_neg htms]
  rcases hidx : getStackIdx st.stack (beVal (imm.getD [])) with _ | idx
  · simp only [hidx]
    by_cases hmax : beVal (imm.getD []) = MAX_256_BIT
    · rw [if_pos hmax]
      exact ⟨[⟨0x5f, none⟩, ⟨0x19, none⟩], by simp, by
        intro i hi
        simp only [List.mem_cons, List.mem_singleton, List.not_mem_nil, or_false] at hi
        rcases hi with rfl | rfl <;> simp⟩
    · rw [if_neg hmax]
      exact ⟨[⟨op, imm⟩], by simp, by
        intro i hi; simp only [List.mem_singleton] at hi; subst hi; simp⟩
  · simp only [hidx]
    by_cases hop : op ≠ 0x5f
    · rw [if_pos hop]
      exact ⟨[⟨0x80 + idx, none⟩], by simp, by
        intro i hi; simp only [List.mem_singleton] at hi; subst hi
        exact Or.inr (Or.inr (Or.inr (Or.inr (Or.inr (Or.inr
          ⟨idx, getStackIdx_le15 hidx, rfl⟩)))))⟩
    · rw [if_neg hop]
      by_cases hmax : beVal (imm.getD []) = MAX_256_BIT
      · rw [if_pos hmax]
        exact ⟨[⟨0x5f, none⟩, ⟨0x19, none⟩], by simp, by
          intro i hi
          simp only [List.mem_cons, List.mem_singleton, List.not_mem_nil, or_false] at hi
          rcases hi with rfl | rfl <;> simp⟩
      · rw [if_neg hmax]
        exact ⟨[⟨op, imm⟩], by simp, by
          intro i hi; simp only [List.mem_singleton] at hi; subst hi; simp⟩

end EthCompress

namespace EthCompress

/-! ## `firstPass` is never cleared -/

theorem pushN_firstPass (st : EmitState) (v : JsNum) :
    (pushN st v).firstPass = st.firstPass := by
  unfold pushN
  split_ifs <;> apply addOp_firstPass

theorem pushB_firstPass (st : EmitState) (b : List Nat) :
    (pushB st b).firstPass = st.firstPass := addOp_firstPass _ _ _

theorem opE_firstPass (st : EmitState) (o : Nat) :
    (opE st o).firstPass = st.firstPass := addOp_firstPass _ _ _

theorem applyStep_firstPass (st : EmitState) (s : PlanStep) :
    (applyStep st s).firstPass = st.firstPass := by
  cases s with
  | num v => exact pushN_firstPass st v
  | bytes b => exact pushB_firstPass st b
  | op o => exact opE_firstPass st o

theorem applyPlan_firstPass (l : List PlanStep) : ∀ st : EmitState,
    (applyPlan st l).firstPass = st.firstPass := by
  induction l with
  | nil => intro st; rfl
  | cons s l ih =>
    intro st
    show (applyPlan (applyStep st s) l).firstPass = st.firstPass
    rw [ih, applyStep_firstPass]

theorem foldl_pushN_firstPass (l : List Nat) : ∀ st : EmitState,
    (l.foldl (fun st v => pushN st (.big v)) st).firstPass = st.firstPass := by
  induction l with
  | nil => intro st; rfl
  | cons v l ih =>
    intro st
    show (l.foldl _ (pushN st (.big v))).firstPass = st.firstPass
    rw [ih, pushN_firstPass]

theorem jitSecondPassState_firstPass (hex : String) :
    (jitSecondPassState hex).firstPass = true := by
  unfold jitSecondPassState jitPass1
  dsimp only
  rw [pushN_firstPass, pushN_firstPass, opE_firstPass, opE_firstPass,
    applyPlan_firstPass, pushN_firstPass, foldl_pushN_firstPass]
  show (applyPlan (pushN initState (.big 1)) _).firstPass = true
  rw [applyPlan_firstPass, pushN_firstPass]
  rfl

end EthCompress

namespace EthCompress

/-! ## Bounds on the numeric helpers -/

theorem notW_lt (a : Nat) : notW a < M256 := by
  have h : 0 < M256 := by decide
  unfold notW
  generalize a % M256 = x
  omega

theorem subW_lt (a b : Nat) : subW a b < M256 := by
  unfold subW
  exact Nat.mod_lt _ (by decide)

theorem beVal_foldl_lt : ∀ (l : List Nat) (acc : Nat), (∀ x ∈ l, x < 256) →
    l.foldl (fun a b => a * 256 + b) acc < (acc + 1) * 256 ^ l.length := by
  intro l
  induction l with
  | nil =>
    intro acc _
    simp only [List.foldl_nil, List.length_nil, pow_zero, mul_one]
    omega
  | cons b rest ih =>
    intro acc h
    have hb : b < 256 := h b (List.mem_cons_self _ _)
    simp only [List.foldl_cons, List.length_cons]
    calc List.foldl (fun a b => a * 256 + b) (acc * 256 + b) rest
        < (acc * 256 + b + 1) * 256 ^ rest.length :=
          ih (acc * 256 + b) (fun x hx => h x (List.mem_cons_of_mem _ hx))
      _ ≤ ((acc + 1) * 256) * 256 ^ rest.length :=
          Nat.mul_le_mul_right _ (by omega)
      _ = (acc + 1) * 256 ^ (rest.length + 1) := by ring

theorem beVal_lt {l : List Nat} (h : ∀ x ∈ l, x < 256) : beVal l < 256 ^ l.length := by
  have := beVal_foldl_lt l 0 h
  simp only [beVal]
  omega

theorem beVal_lt_M256 {l : List Nat} (hlen : l.length ≤ 32) (h : ∀ x ∈ l, x < 256) :
    beVal l < M256 := by
  have h1 := beVal_lt h
  have h2 : (256 : Nat) ^ l.length ≤ 256 ^ 32 := Nat.pow_le_pow_right (by omega) hlen
  have h3 : (256 : Nat) ^ 32 = M256 := by decide
  omega

theorem toBytesBE_length_pos {v : Nat} (hv : v ≠ 0) : 0 < (toBytesBE v).length := by
  unfold toBytesBE
  rw [show (64 : Nat) = 63 + 1 from rfl]
  unfold toBytesBEAux
  rw [if_neg hv]
  simp

theorem getD_lt_of_forall : ∀ {l : List Nat} (i : Nat) {bound : Nat},
    (∀ x ∈ l, x < bound) → 0 < bound → l.getD i 0 < bound := by
  intro l
  induction l with
  | nil => intro i bound _ h0; simpa [List.getD] using h0
  | cons x xs ih =>
    intro i bound h h0
    cases i with
    | zero => simpa [List.getD] using h x (List.mem_cons_self _ _)
    | succ n =>
      have := ih n (fun y hy => h y (List.mem_cons_of_mem _ hy)) h0
      simpa [List.getD] using this

/-! ## The `Map` model -/

theorem mapSet_mem {K V : Type} [DecidableEq K] {m : List (K × V)} {k : K} {v : V}
    {p : K × V} (hp : p ∈ mapSet m k v) : p ∈ m ∨ p.2 = v := by
  unfold mapSet at hp
  split_ifs at hp with h
  · rcases List.mem_map.mp hp with ⟨q, hq, hqe⟩
    by_cases hk : q.1 = k
    · rw [if_pos hk] at hqe; right; rw [← hqe]
    · rw [if_neg hk] at hqe; left; rwa [← hqe]
  · rcases List.mem_append.mp hp with h1 | h1
    · exact Or.inl h1
    · right; simp only [List.mem_singleton] at h1; rw [h1]

theorem mapGet?_mem {K V : Type} [DecidableEq K] {m : List (K × V)} {k : K} {v : V}
    (h : mapGet? m k = some v) : ∃ p ∈ m, p.2 = v := by
  unfold mapGet? at h
  rcases Option.map_eq_some'.mp h with ⟨q, hq, hv⟩
  exact ⟨q, List.mem_of_find?_eq_some hq, hv⟩

theorem mapGet?_getD_lt {m : List (String × Nat)} {k : String} {bound : Nat}
    (h : ∀ p ∈ m, p.2 < bound) (h0 : 0 < bound) : (mapGet? m k).getD 0 < bound := by
  rcases hg : mapGet? m k with _ | v
  · simpa using h0
  · rcases mapGet?_mem hg with ⟨p, hp, hv⟩
    have := h p hp
    simp only [Option.getD_some]
    omega

/-! ## Hex parsing bounds -/

theorem hexDigit?_lt {c : Char} {a : Nat} (h : hexDigit? c = some a) : a < 16 := by
  unfold hexDigit? at h
  split_ifs at h with h1 h2 h3 <;> simp only [Option.some.injEq] at h
  · have h9 : c.toNat ≤ 57 := h1.2
    omega
  · have hf : c.toNat ≤ 102 := h2.2
    have h0 : 97 ≤ c.toNat := h2.1
    omega
  · have hF : c.toNat ≤ 70 := h3.2
    have h0 : 65 ≤ c.toNat := h3.1
    omega

theorem parseHexByte_lt (c1 c2 : Char) : parseHexByte c1 c2 < 256 := by
  unfold parseHexByte
  rcases h1 : hexDigit? c1 with _ | a
  · dsimp only; omega
  · dsimp only
    have ha := hexDigit?_lt h1
    rcases h2 : hexDigit? c2 with _ | b
    · dsimp only; omega
    · dsimp only
      have hb := hexDigit?_lt h2
      omega

theorem hexBytes_lt {s : String} : ∀ x ∈ hexBytes s, x < 256 := by
  intro x hx
  unfold hexBytes at hx
  rcases List.mem_map.mp hx with ⟨p, _, rfl⟩
  exact parseHexByte_lt p.1 p.2

theorem charPairs_length_le : ∀ l : List Char, (charPairs l).length ≤ l.length
  | [] => by simp [charPairs]
  | [_] => by simp [charPairs]
  | _ :: _ :: rest => by
    simp only [charPairs, List.length_cons]
    have := charPairs_length_le rest
    omega

theorem hexBytes_length_le (s : String) : (hexBytes s).length ≤ s.data.length := by
  unfold hexBytes
  rw [List.length_map]
  exact charPairs_length_le _

end EthCompress

namespace EthCompress

theorem mapGet?_mapSet_self {K V : Type} [DecidableEq K] :
    ∀ (m : List (K × V)) (k : K) (v : V), mapGet? (mapSet m k v) k = some v := by
  intro m k v
  induction m with
  | nil => simp [mapSet, mapGet?, List.find?]
  | cons q qs ih =>
    by_cases hq : q.1 = k
    · have hany : (q :: qs).any (fun p => decide (p.1 = k)) = true := by simp [hq]
      unfold mapSet
      rw [if_pos hany]
      unfold mapGet?
      simp [List.find?, hq]
    · by_cases hany : qs.any (fun p => decide (p.1 = k)) = true
      · have hany' : (q :: qs).any (fun p => decide (p.1 = k)) = true := by
          simp [List.any_cons, hany]
        unfold mapSet
        rw [if_pos hany']
        simp only [List.map_cons, if_neg hq]
        unfold mapGet?
        rw [List.find?_cons_of_neg _ (by simp [hq])]
        have h2 := ih
        unfold mapSet at h2
        rw [if_pos hany] at h2
        unfold mapGet? at h2
        exact h2
      · have hany' : ¬((q :: qs).any (fun p => decide (p.1 = k)) = true) := by
          simp only [List.any_cons, Bool.or_eq_true, decide_eq_true_eq]
          push_neg
          exact ⟨hq, by simpa using hany⟩
        unfold mapSet
        rw [if_neg hany']
        unfold mapGet?
        rw [List.cons_append, List.find?_cons_of_neg _ (by simp [hq])]
        have h2 := ih
        unfold mapSet at h2
        rw [if_neg hany] at h2
        unfold mapGet? at h2
        exact h2

/-! ## Segment scan bounds -/

theorem scanSegsGo_bounds : ∀ (l : List Nat) (i : Nat) (cur : Option Nat),
    (∀ s0, cur = some s0 → s0 < i) →
    ∀ p ∈ scanSegsGo i cur l, p.1 ≤ p.2 ∧ p.2 + 1 ≤ i + l.length := by
  intro l
  induction l with
  | nil =>
    intro i cur hcur p hp
    cases cur with
    | none => simp [scanSegsGo] at hp
    | some s =>
      have hs := hcur s rfl
      simp only [scanSegsGo, List.mem_singleton] at hp
      subst hp
      simp only [List.length_nil]
      omega
  | cons b rest ih =>
    intro i cur hcur p hp
    cases cur with
    | none =>
      rcases b with _ | m
      · have hp' : p ∈ scanSegsGo (i + 1) none rest := hp
        have := ih (i + 1) none (by intro s0 h; cases h) p hp'
        simp only [List.length_cons]
        omega
      · have hp' : p ∈ scanSegsGo (i + 1) (some i) rest := hp
        have := ih (i + 1) (some i) (by intro s0 h; injection h with h; omega) p hp'
        simp only [List.length_cons]
        omega
    | some s =>
      have hs := hcur s rfl
      rcases b with _ | m
      · have hp' : p ∈ (s, i - 1) :: scanSegsGo (i + 1) none rest := hp
        rcases List.mem_cons.mp hp' with rfl | hmem
        · simp only [List.length_cons]
          omega
        · have := ih (i + 1) none (by intro s0 h; cases h) p hmem
          simp only [List.length_cons]
          omega
      · have hp' : p ∈ scanSegsGo (i + 1) (some s) rest := hp
        have := ih (i + 1) (some s)
          (by intro s0 h; injection h with h; omega) p hp'
        simp only [List.length_cons]
        omega

theorem scanSegs_bounds {word : List Nat} {p : Nat × Nat} (hp : p ∈ scanSegs word) :
    p.1 ≤ p.2 ∧ p.2 + 1 ≤ word.length := by
  have := scanSegsGo_bounds word 0 none (by intro s0 h; cases h) p hp
  omega

/-! ## SHIFT+NOT candidate bounds -/

theorem snCandidatesAux_mem {lv : Nat} : ∀ (l : List Nat) (p : Nat × Nat),
    p ∈ snCandidatesAux lv l → p.1 ∈ l ∧ p.2 < M256 := by
  intro l
  induction l with
  | nil => intro p hp; simp [snCandidatesAux] at hp
  | cons s rest ih =>
    intro p hp
    unfold snCandidatesAux at hp
    dsimp only at hp
    by_cases h0 : shrW s lv = 0
    · rw [if_pos h0] at hp; simp at hp
    · rw [if_neg h0] at hp
      rcases List.mem_append.mp hp with h | h
      · by_cases hq : shlW s (notW (shrW s lv)) = lv
        · rw [if_pos hq] at h
          simp only [List.mem_singleton] at h
          subst h
          exact ⟨List.mem_cons_self _ _, notW_lt _⟩
        · rw [if_neg hq] at h; simp at h
      · have := ih p h
        exact ⟨List.mem_cons_of_mem _ this.1, this.2⟩

theorem snCandidates_mem {lv : Nat} {p : Nat × Nat} (hp : p ∈ snCandidates lv) :
    p.1 ≤ 248 ∧ p.2 < M256 := by
  have h := snCandidatesAux_mem _ p hp
  rcases List.mem_map.mp h.1 with ⟨i, hi, hie⟩
  have : i < 31 := List.mem_range.mp hi
  omega

theorem seFind_lt {lv n nb : Nat} (h : seFind lv n = some nb) : nb < n := by
  unfold seFind at h
  exact List.mem_range.mp (List.mem_of_find?_eq_some h)

theorem stepOk_mono {b b' : Nat} (hb : b ≤ b') {s : PlanStep} (hs : stepOk b s) :
    stepOk b' s := by
  cases s with
  | num v => cases v with
    | num k => exact lt_of_lt_of_le hs hb
    | big k => exact hs
  | bytes l => exact hs
  | op o => exact hs

end EthCompress

namespace EthCompress

/-! ## No `SWAP1` is ever emitted -/

theorem noSwap_addOpPush {st : EmitState} (op : Nat) (imm : Option (List Nat))
    (hop : op ≠ 0x90) (h : noSwapCode st) : noSwapCode (addOpPush st op imm) := by
  obtain ⟨d, hc, hd⟩ := addOpPush_code st op imm
  intro i hi
  rw [hc] at hi
  rcases List.mem_append.mp hi with hi | hi
  · exact h i hi
  · rcases hd i hi with h1 | h1 | h1 | h1 | h1 | h1 | ⟨idx, hle, h1⟩ <;> omega

theorem opE_code_concrete (st : EmitState) (o : Nat)
    (ho : o ∈ ([0x36, 0x59, 0x0b, 0x19, 0x18, 0x16, 0x03, 0x1b, 0x1c, 0x17,
      0x51, 0x52, 0x53, 0xf3] : List Nat)) :
    (opE st o).code = st.code ++ [⟨o, none⟩] := by
  fin_cases ho <;> rfl

theorem noSwap_opE_concrete {st : EmitState} (o : Nat)
    (ho : o ∈ ([0x36, 0x59, 0x0b, 0x19, 0x18, 0x16, 0x03, 0x1b, 0x1c, 0x17,
      0x51, 0x52, 0x53, 0xf3] : List Nat)) (h : noSwapCode st) :
    noSwapCode (opE st o) := by
  intro i hi
  rw [opE_code_concrete st o ho] at hi
  rcases List.mem_append.mp hi with hi | hi
  · exact h i hi
  · simp only [List.mem_singleton] at hi
    subst hi
    have ho' : o ≠ 0x90 := by fin_cases ho <;> decide
    exact ho'

theorem noSwap_opE_push0 {st : EmitState} (h : noSwapCode st) :
    noSwapCode (opE st 0x5f) := by
  unfold opE
  rw [addOp_push st 0x5f none (Or.inr rfl)]
  exact noSwap_addOpPush _ _ (by decide) h

theorem noSwap_pushB {st : EmitState} (b : List Nat) (hb : b.length ≤ 32)
    (h : noSwapCode st) : noSwapCode (pushB st b) := by
  unfold pushB
  by_cases hb0 : b.length = 0
  · rw [addOp_push _ _ _ (Or.inr (by omega))]
    exact noSwap_addOpPush _ _ (by omega) h
  · rw [addOp_push _ _ _ (Or.inl (by omega))]
    exact noSwap_addOpPush _ _ (by omega) h

theorem noSwap_pushN {st : EmitState} (v : JsNum) (hv : v.val < M256)
    (h : noSwapCode st) : noSwapCode (pushN st v) := by
  unfold pushN
  split_ifs with h1 h2 h3
  · exact noSwap_opE_concrete 0x59 (by decide) h
  · exact noSwap_opE_concrete 0x36 (by decide) h
  · exact noSwap_opE_push0 h
  · have hlen : (toBytesBE v.val).length ≤ 32 := by
      refine toBytesBE_length_le (by omega) ?_
      have h256 : (256 : Nat) ^ 32 = M256 := by decide
      omega
    have hpos : 0 < (toBytesBE v.val).length := toBytesBE_length_pos h3
    rw [addOp_push _ _ _ (Or.inl (by omega))]
    exact noSwap_addOpPush _ _ (by omega) h

theorem noSwap_applyStep {bound : Nat} {st : EmitState} {s : PlanStep}
    (hbound : bound ≤ M256) (hs : stepOk bound s) (h : noSwapCode st) :
    noSwapCode (applyStep st s) := by
  cases s with
  | num v =>
    cases v with
    | num k => exact noSwap_pushN _ (lt_of_lt_of_le hs hbound) h
    | big k => exact noSwap_pushN _ hs h
  | bytes b => exact noSwap_pushB b hs h
  | op o =>
    have hs' : o ∈ ([0x51, 0x52, 0x53, 0x17, 0x19, 0x1b, 0x0b, 0x03] : List Nat) := hs
    refine noSwap_opE_concrete o ?_ h
    fin_cases hs' <;> decide

theorem noSwap_applyPlan {bound : Nat} (hbound : bound ≤ M256) :
    ∀ (l : List PlanStep) (st : EmitState), (∀ s ∈ l, stepOk bound s) →
      noSwapCode st → noSwapCode (applyPlan st l) := by
  intro l
  induction l with
  | nil => intro st _ h; exact h
  | cons s l ih =>
    intro st hl h
    show noSwapCode (applyPlan (applyStep st s) l)
    exact ih _ (fun x hx => hl x (List.mem_cons_of_mem _ hx))
      (noSwap_applyStep hbound (hl s (List.mem_cons_self _ _)) h)

theorem noSwap_foldl_pushN :
    ∀ (l : List Nat), (∀ v ∈ l, v < M256) →
      ∀ st : EmitState, noSwapCode st →
        noSwapCode (l.foldl (fun st v => pushN st (.big v)) st) := by
  intro l
  induction l with
  | nil => intro _ st h; exact h
  | cons v l ih =>
    intro hl st h
    show noSwapCode (l.foldl _ (pushN st (.big v)))
    exact ih (fun x hx => hl x (List.mem_cons_of_mem _ hx)) _
      (noSwap_pushN _ (hl v (List.mem_cons_self _ _)) h)

end EthCompress

namespace EthCompress

/-! ## Well-formedness of the planner's step lists -/

theorem mstore8Steps_ok {base : Nat} {word : List Nat} {seg : List (Nat × Nat)}
    {bound : Nat} (hb : 256 ≤ bound) (hbase : base + 31 < bound)
    (hwb : ∀ x ∈ word, x < 256) (hseg : ∀ p ∈ seg, p.1 ≤ 31) :
    ∀ s ∈ mstore8Steps base word seg, stepOk bound s := by
  intro s hs
  unfold mstore8Steps at hs
  rcases List.mem_flatten.mp hs with ⟨l, hl, hsl⟩
  rcases List.mem_map.mp hl with ⟨p, hp, rfl⟩
  have hp1 := hseg p hp
  simp only [List.mem_cons, List.not_mem_nil, or_false] at hsl
  rcases hsl with rfl | rfl | rfl
  · exact lt_of_lt_of_le (getD_lt_of_forall _ hwb (by omega)) hb
  · show base + p.1 < bound
    omega
  · show (0x53 : Nat) ∈ _
    decide

theorem shlOrStepsAux_ok {word : List Nat} {bound : Nat} (hb : 256 ≤ bound)
    (hwlen : word.length ≤ 32) :
    ∀ (seg : List (Nat × Nat)) (first : Bool) (s : PlanStep),
      s ∈ shlOrStepsAux word first seg → stepOk bound s := by
  intro seg
  induction seg with
  | nil => intro first s hs; simp [shlOrStepsAux] at hs
  | cons p rest ih =>
    intro first s hs
    rcases p with ⟨ps, pe⟩
    unfold shlOrStepsAux at hs
    simp only [List.append_assoc, List.mem_append] at hs
    rcases hs with hs | hs | hs | hs
    · simp only [List.mem_singleton] at hs
      subst hs
      show ((word.drop ps).take (pe + 1 - ps)).length ≤ 32
      have h1 : ((word.drop ps).take (pe + 1 - ps)).length ≤ (word.drop ps).length := by
        rw [List.length_take]
        exact min_le_right _ _
      have h2 : (word.drop ps).length = word.length - ps := List.length_drop _ _
      omega
    · by_cases hpe : pe < 31
      · rw [if_pos hpe] at hs
        simp only [List.mem_cons, List.not_mem_nil, or_false] at hs
        rcases hs with rfl | rfl
        · show (31 - pe) * 8 < bound
          omega
        · show (0x1b : Nat) ∈ _
          decide
      · rw [if_neg hpe] at hs
        simp at hs
    · cases first with
      | true => simp at hs
      | false =>
        simp only [if_neg (by simp : ¬(false : Bool) = true), List.mem_singleton] at hs
        subst hs
        show (0x17 : Nat) ∈ _
        decide
    · exact ih false s hs

theorem bestFold_ok : ∀ (cands : List (Nat × Nat)) (init : Nat × List PlanStep),
    (∀ p ∈ cands, p.1 ≤ 248 ∧ p.2 < M256) →
    (∀ s ∈ init.2, stepOk 256 s) →
    ∀ s ∈ (cands.foldl (fun best p =>
      let shiftedBytesA := (toBytesBE p.2).length
      let shiftedBytes := if shiftedBytesA = 0 then 1 else shiftedBytesA
      let shiftNotCost := 1 + shiftedBytes + 2 + 1 + 1
      if shiftNotCost < best.1 then
        (shiftNotCost, [PlanStep.num (.big p.2), PlanStep.num (.num p.1),
          PlanStep.op 0x1b, PlanStep.op 0x19])
      else best) init).2, stepOk 256 s := by
  intro cands
  induction cands with
  | nil => intro init _ hinit; exact hinit
  | cons p rest ih =>
    intro init hc hinit
    refine ih _ (fun q hq => hc q (List.mem_cons_of_mem _ hq)) ?_
    dsimp only
    have hp := hc p (List.mem_cons_self _ _)
    split_ifs with h0 h1 h2 <;>
      first
        | exact hinit
        | (intro s hs
           simp only [List.mem_cons, List.not_mem_nil, or_false] at hs
           rcases hs with rfl | rfl | rfl | rfl
           · exact hp.2
           · show p.1 < 256
             omega
           · show (0x1b : Nat) ∈ _
             decide
           · show (0x19 : Nat) ∈ _
             decide)

theorem bestOf_ok {lv : Nat} {literal : List Nat} (hlen : literal.length ≤ 32)
    (hlv : lv < M256) : ∀ s ∈ (bestOf lv literal).2, stepOk 256 s := by
  unfold bestOf
  dsimp only
  refine bestFold_ok (snCandidates lv) _ (fun p hp => snCandidates_mem hp) ?_
  rcases hse : seFind lv literal.length with _ | nb
  · simp only [hse]
    intro s hs
    repeat' split at hs
    all_goals simp only [List.mem_cons, List.not_mem_nil, or_false] at hs
    all_goals rcases hs with rfl | rfl | rfl
    all_goals first
      | exact hlen
      | exact notW_lt _
      | exact subW_lt _ _
      | decide
  · have hnb := seFind_lt hse
    simp only [hse]
    intro s hs
    repeat' split at hs
    all_goals simp only [List.mem_cons, List.not_mem_nil, or_false] at hs
    all_goals rcases hs with rfl | rfl | rfl
    all_goals first
      | exact hlen
      | exact notW_lt _
      | exact subW_lt _ _
      | exact lt_of_le_of_lt (Nat.mod_le _ _) hlv
      | exact (show nb - 1 < 256 by omega)
      | decide

end EthCompress

namespace EthCompress

theorem wordPlanSteps_ok {hex : String} {caches : PlanCaches} {base : Nat}
    {word : List Nat} {bound : Nat}
    (hb : 256 ≤ bound) (hbase : base + 31 < bound)
    (hcache : cacheOk bound caches)
    (hwlen : word.length = 32) (hwb : ∀ x ∈ word, x < 256) :
    (∀ s ∈ (wordPlanSteps hex caches base word).1, stepOk bound s) ∧
      cacheOk bound (wordPlanSteps hex caches base word).2 := by
  have hseg : ∀ p ∈ scanSegs word, p.1 ≤ 31 := by
    intro p hp
    have := scanSegs_bounds hp
    omega
  have hlit : ∀ s0 : Nat, (word.drop s0).length ≤ 32 := by
    intro s0
    rw [List.length_drop]
    omega
  have hlv : ∀ s0 : Nat, beVal (word.drop s0) < M256 := fun s0 =>
    beVal_lt_M256 (hlit s0) (fun x hx => hwb x (List.mem_of_mem_drop hx))
  unfold wordPlanSteps
  dsimp only
  split_ifs
  all_goals refine ⟨fun s hs => ?_, fun p hp => ?_⟩
  all_goals first
    | exact hcache p hp
    | (rcases mapSet_mem hp with h | h
       · exact hcache p h
       · omega)
    | exact absurd hs (List.not_mem_nil s)
    | exact mstore8Steps_ok hb hbase hwb hseg s hs
    | (simp only [List.mem_cons, List.not_mem_nil, or_false] at hs
       rcases hs with rfl | rfl | rfl | rfl <;>
         first
           | exact hlit _
           | exact mapGet?_getD_lt hcache (by omega)
           | (show base < bound
              omega)
           | (show (0x51 : Nat) ∈ _
              decide)
           | (show (0x52 : Nat) ∈ _
              decide))
    | (rcases List.mem_append.mp hs with hs | hs
       · first
           | exact shlOrStepsAux_ok hb (by omega) _ _ s hs
           | exact stepOk_mono hb (bestOf_ok (hlit _) (hlv _) s hs)
       · simp only [List.mem_cons, List.not_mem_nil, or_false] at hs
         rcases hs with rfl | rfl
         · show base < bound
           omega
         · show (0x52 : Nat) ∈ _
           decide)

theorem buildPlanAux_ok {hex : String} {bound : Nat} (hb : 256 ≤ bound) :
    ∀ (ws : List (Nat × List Nat)) (caches : PlanCaches),
      (∀ p ∈ ws, p.1 + 31 < bound ∧ p.2.length = 32 ∧ ∀ x ∈ p.2, x < 256) →
      cacheOk bound caches →
      (∀ s ∈ (buildPlanAux hex caches ws).1, stepOk bound s) ∧
        cacheOk bound (buildPlanAux hex caches ws).2 := by
  intro ws
  induction ws with
  | nil => intro caches _ hc; exact ⟨fun s hs => absurd hs (List.not_mem_nil s), hc⟩
  | cons bw rest ih =>
    intro caches hws hc
    rcases bw with ⟨bse, wrd⟩
    have hbw := hws (bse, wrd) (List.mem_cons_self _ _)
    have hw := @wordPlanSteps_ok hex _ _ _ _ hb hbw.1 hc hbw.2.1 hbw.2.2
    obtain ⟨steps, caches1, hsc⟩ :
        ∃ a b, wordPlanSteps hex caches bse wrd = (a, b) := ⟨_, _, rfl⟩
    have heq : buildPlanAux hex caches ((bse, wrd) :: rest) =
        (steps ++ (buildPlanAux hex caches1 rest).1,
          (buildPlanAux hex caches1 rest).2) := by
      conv_lhs => unfold buildPlanAux
      rw [hsc]
    rw [hsc] at hw
    dsimp only at hw
    have hrest := ih caches1 (fun p hp => hws p (List.mem_cons_of_mem _ hp)) hw.2
    rw [heq]
    dsimp only
    constructor
    · intro s hs
      rcases List.mem_append.mp hs with hs | hs
      · exact hw.1 s hs
      · exact hrest.1 s hs
    · exact hrest.2

theorem wordsOf_ok {buf : List Nat} (hbytes : ∀ x ∈ buf, x < 256) :
    ∀ p ∈ wordsOf buf, p.1 + 31 < buf.length + 256 ∧ p.2.length = 32 ∧
      ∀ x ∈ p.2, x < 256 := by
  intro p hp
  unfold wordsOf at hp
  rcases List.mem_map.mp hp with ⟨k, hk, rfl⟩
  have hk' : k < (buf.length + 31) / 32 := List.mem_range.mp hk
  dsimp only
  refine ⟨by omega, ?_, ?_⟩
  · rw [List.length_append, List.length_replicate]
    have h1 : ((buf.drop (32 * k)).take 32).length ≤ 32 := by
      rw [List.length_take]
      exact min_le_left _ _
    omega
  · intro x hx
    rcases List.mem_append.mp hx with hx | hx
    · exact hbytes x (List.mem_of_mem_drop (List.mem_of_mem_take hx))
    · have := List.eq_of_mem_replicate hx
      omega

theorem buildPlan_ok {hex : String} {buf : List Nat} (hbytes : ∀ x ∈ buf, x < 256) :
    ∀ s ∈ buildPlan hex buf, stepOk (buf.length + 256) s := by
  intro s hs
  unfold buildPlan at hs
  exact (buildPlanAux_ok (by omega) (wordsOf buf) _ (wordsOf_ok hbytes)
    (fun p hp => absurd hp (List.not_mem_nil p))).1 s hs

end EthCompress

namespace EthCompress

theorem preseedEntries_le {st : EmitState} {v : Nat} (hv : v ∈ preseedEntries st) :
    v ≤ MAX_128_BIT := by
  unfold preseedEntries at hv
  rcases List.mem_map.mp hv with ⟨p, hp, rfl⟩
  have h1 := List.mem_of_mem_take hp
  have h2 := (List.mem_filter.mp h1).2
  exact of_decide_eq_true h2

theorem jitSecondPassState_noswap {hex : String}
    (hlen : hex.data.length + 284 ≤ M256) :
    noSwapCode (jitSecondPassState hex) := by
  have h1 := hexBytes_length_le hex
  have hbytes : ∀ x ∈ (List.replicate 28 0 ++ hexBytes hex : List Nat), x < 256 := by
    intro x hx
    rcases List.mem_append.mp hx with hx | hx
    · have := List.eq_of_mem_replicate hx
      omega
    · exact hexBytes_lt x hx
  have hplan := @buildPlan_ok hex _ hbytes
  have hbM : (List.replicate 28 0 ++ hexBytes hex : List Nat).length + 256 ≤ M256 := by
    simp only [List.length_append, List.length_replicate]
    omega
  have hpres : ∀ (st : EmitState) (v : Nat), v ∈ preseedEntries st → v < M256 := by
    intro st v hv
    have := preseedEntries_le hv
    have h128 : MAX_128_BIT < M256 := by decide
    omega
  have hlenM : (hexBytes hex).length < M256 := by
    have : 284 ≤ M256 := by decide
    omega
  unfold jitSecondPassState jitPass1
  dsimp only
  refine noSwap_pushN _ (by decide) ?_
  refine noSwap_pushN _ hlenM ?_
  refine noSwap_opE_push0 ?_
  refine noSwap_opE_push0 ?_
  refine noSwap_applyPlan hbM _ _ hplan ?_
  refine noSwap_pushN _ (by decide) ?_
  refine noSwap_foldl_pushN _ (hpres _) _ ?_
  intro i hi
  exact absurd hi (List.not_mem_nil i)

/-- **C7** (corrected).  The source's `firstPass` flag is never cleared, so the
second pass still runs with `firstPass === true`: a `push_int` request
satisfied by a DUP hit *increments* the duplicated value's frequency counter
by one (the `-1` branch is dead), and the emitter emits a plain
`DUP1+idx` opcode — no `SWAP1` (`0x90`) is ever emitted on any input. -/
theorem C7_second_pass_dup (hex : String) (hlen : hex.data.length < 2 ^ 64) :
    ((jitSecondPassState hex).firstPass = true ∧
      ∀ i ∈ (jitSecondPassState hex).code, i.op ≠ 0x90) ∧
    ∀ (st : EmitState) (op : Nat) (imm : Option (List Nat)) (idx : Nat),
      st.firstPass = true →
      beVal (imm.getD []) ≠ 224 →
      beVal (imm.getD []) ≠ 32 →
      beVal (imm.getD []) ≠ st.trackedMemSize →
      getStackIdx st.stack (beVal (imm.getD [])) = some idx →
      op ≠ 0x5f →
      (addOpPush st op imm).code = st.code ++ [⟨0x80 + idx, none⟩] ∧
      mapGet? (addOpPush st op imm).stackFreq (beVal (imm.getD [])) =
        some ((mapGet? st.stackFreq (beVal (imm.getD []))).getD 0 + 1) := by
  constructor
  · refine ⟨jitSecondPassState_firstPass hex, ?_⟩
    have h64 : (2 : Nat) ^ 64 + 284 ≤ M256 := by decide
    exact jitSecondPassState_noswap (by omega)
  · intro st op imm idx hfp h224 h32 htms hidx hop
    unfold addOpPush
    dsimp only
    rw [if_neg h224, if_neg h32, if_neg htms, hidx]
    dsimp only
    rw [if_pos hop, hfp]
    constructor
    · rfl
    · exact mapGet?_mapSet_self _ _ _

end EthCompress

namespace EthCompress

set_option maxRecDepth 100000 in
/-- **C7**, counterexample to the original claim: on this concrete input a
second-pass DUP hit *increments* the duplicated value's frequency counter
(3 to 4, instead of decrementing it), and the opcode emitted is a plain
`DUP2` (`0x81`), not a `SWAP1`-based sequence. -/
theorem C7_counterexample :
    (let hex : String :=
      ⟨['1', '1', '2', '2', '3', '3', '4', '4'] ++ List.replicate 56 '0' ++
        ['1', '1', '2', '2', '3', '3', '4', '4']⟩
     let p := jitPass1 hex
     let st2 : EmitState :=
       { p.1 with code := [], stack := [], trackedMemSize := 0, mem := [] }
     let st4 := pushN ((preseedEntries p.1).foldl (fun st v => pushN st (.big v)) st2)
       (.big 1)
     let st5 := applyStep st4 (p.2.headD (.op 0))
     st4.firstPass = true ∧
       mapGet? st4.stackFreq 0x11223344 = some 3 ∧
       mapGet? st5.stackFreq 0x11223344 = some 4 ∧
       st5.code = st4.code ++ [⟨0x81, none⟩]) := by
  decide

set_option maxRecDepth 100000 in
theorem C7_second_pass_dup_witness :
    (("aaaa" : String).data.length < 2 ^ 64 ∧
      (jitSecondPassState "aaaa").firstPass = true ∧
      ∀ i ∈ (jitSecondPassState "aaaa").code, i.op ≠ 0x90) ∧
    ({ initState with stack := [5] } : EmitState).firstPass = true ∧
    getStackIdx ({ initState with stack := [5] } : EmitState).stack
      (beVal ((some [5] : Option (List Nat)).getD [])) = some 0 ∧
    (addOpPush { initState with stack := [5] } 0x60 (some [5])).code =
      ({ initState with stack := [5] } : EmitState).code ++ [⟨0x80 + 0, none⟩] ∧
    mapGet? (addOpPush { initState with stack := [5] } 0x60 (some [5])).stackFreq
        (beVal ((some [5] : Option (List Nat)).getD [])) =
      some ((mapGet? ({ initState with stack := [5] } : EmitState).stackFreq
        (beVal ((some [5] : Option (List Nat)).getD []))).getD 0 + 1) := by
  refine ⟨⟨by decide, (C7_second_pass_dup "aaaa" (by decide)).1.1,
    (C7_second_pass_dup "aaaa" (by decide)).1.2⟩, rfl, by decide, ?_, ?_⟩
  · exact ((C7_second_pass_dup "aaaa" (by decide)).2 _ 0x60 (some [5]) 0 rfl
      (by decide) (by decide) (by decide) (by decide) (by decide)).1
  · exact ((C7_second_pass_dup "aaaa" (by decide)).2 _ 0x60 (some [5]) 0 rfl
      (by decide) (by decide) (by decide) (by decide) (by decide)).2

end EthCompress

namespace EthCompress

/-! ## The pre-seed sort -/

theorem insertByCnt_mem (cnt : List (Nat × Nat)) (x : Nat × Int) :
    ∀ (l : List (Nat × Int)) (a : Nat × Int),
      a ∈ insertByCnt cnt x l ↔ a = x ∨ a ∈ l := by
  intro l
  induction l with
  | nil => intro a; simp [insertByCnt]
  | cons y ys ih =>
    intro a
    unfold insertByCnt
    split_ifs with h
    · simp [List.mem_cons]
    · simp only [List.mem_cons, ih]
      tauto

theorem sortByCntDesc_mem (cnt : List (Nat × Nat)) :
    ∀ (l : List (Nat × Int)) (a : Nat × Int),
      a ∈ sortByCntDesc cnt l ↔ a ∈ l := by
  intro l
  induction l with
  | nil => intro a; simp [sortByCntDesc]
  | cons x xs ih =>
    intro a
    unfold sortByCntDesc
    rw [insertByCnt_mem]
    simp only [List.mem_cons, ih]

theorem insertByCnt_sorted (cnt : List (Nat × Nat)) (x : Nat × Int) :
    ∀ l : List (Nat × Int),
      l.Pairwise (fun a b => (mapGet? cnt b.1).getD 0 ≤ (mapGet? cnt a.1).getD 0) →
      (insertByCnt cnt x l).Pairwise
        (fun a b => (mapGet? cnt b.1).getD 0 ≤ (mapGet? cnt a.1).getD 0) := by
  intro l
  induction l with
  | nil => intro _; simp [insertByCnt]
  | cons y ys ih =>
    intro h
    rcases List.pairwise_cons.mp h with ⟨hy, hys⟩
    unfold insertByCnt
    split_ifs with hgt
    · refine List.pairwise_cons.mpr ⟨?_, h⟩
      intro z hz
      rcases List.mem_cons.mp hz with rfl | hz
      · omega
      · have := hy z hz
        omega
    · refine List.pairwise_cons.mpr ⟨?_, ih hys⟩
      intro z hz
      rcases (insertByCnt_mem cnt x ys z).mp hz with rfl | hz
      · omega
      · exact hy z hz

theorem sortByCntDesc_sorted (cnt : List (Nat × Nat)) :
    ∀ l : List (Nat × Int),
      (sortByCntDesc cnt l).Pairwise
        (fun a b => (mapGet? cnt b.1).getD 0 ≤ (mapGet? cnt a.1).getD 0) := by
  intro l
  induction l with
  | nil => simp [sortByCntDesc]
  | cons x xs ih => exact insertByCnt_sorted cnt x _ ih

/-- **C6** (corrected).  The pre-seed list consists of values recorded in the
first pass with frequency `> 1`, excluding `0`/`1` (via `> 1`) and the
reserved constants `32` and `224`, filtered to values `≤ 2 ^ 128 - 1`,
truncated to the first 15 — but sorted descending by the *last*-push
counter (`stackCnt` is overwritten at every push), not by first-appearance
order. -/
theorem C6_preseed_characterisation (st : EmitState) :
    (∀ v ∈ preseedEntries st, v ≤ MAX_128_BIT ∧
      ∃ f : Int, (v, f) ∈ st.stackFreq ∧ 1 < f ∧ 1 < v ∧ v ≠ 32 ∧ v ≠ 224) ∧
    (preseedEntries st).Pairwise
      (fun a b => (mapGet? st.stackCnt b).getD 0 ≤ (mapGet? st.stackCnt a).getD 0) ∧
    (preseedEntries st).length ≤ 15 ∧
    ((preseedEntries st).length < 15 →
      ∀ p ∈ st.stackFreq, 1 < p.2 → 1 < p.1 → p.1 ≠ 32 → p.1 ≠ 224 →
        p.1 ≤ MAX_128_BIT → p.1 ∈ preseedEntries st) := by
  refine ⟨?_, ?_, ?_, ?_⟩
  · intro v hv
    unfold preseedEntries at hv
    rcases List.mem_map.mp hv with ⟨p, hp, rfl⟩
    have h1 := List.mem_of_mem_take hp
    rcases List.mem_filter.mp h1 with ⟨h2, h3⟩
    have h4 := (sortByCntDesc_mem _ _ p).mp h2
    rcases List.mem_filter.mp h4 with ⟨h5, h6⟩
    simp only [Bool.and_eq_true, decide_eq_true_eq] at h6
    exact ⟨of_decide_eq_true h3, p.2, h5, h6.1.1.1, h6.1.1.2, h6.1.2, h6.2⟩
  · unfold preseedEntries
    rw [List.pairwise_map]
    exact List.Pairwise.sublist (List.take_sublist _ _)
      ((sortByCntDesc_sorted st.stackCnt _).filter _)
  · unfold preseedEntries
    rw [List.length_map]
    exact List.length_take_le _ _
  · intro hlt p hp hf hv h32 h224 hmax
    unfold preseedEntries at hlt ⊢
    rw [List.length_map, List.length_take] at hlt
    rw [List.take_of_length_le (by omega)]
    refine List.mem_map.mpr ⟨p, ?_, rfl⟩
    refine List.mem_filter.mpr ⟨?_, decide_eq_true hmax⟩
    refine (sortByCntDesc_mem _ _ p).mpr ?_
    refine List.mem_filter.mpr ⟨hp, ?_⟩
    simp only [Bool.and_eq_true, decide_eq_true_eq]
    exact ⟨⟨⟨hf, hv⟩, h32⟩, h224⟩

end EthCompress

namespace EthCompress

set_option maxRecDepth 100000 in
/-- **C6**, counterexample to the original claim: on this concrete input the
values `0x11223344` and `0x55667788` each have frequency 2; `0x11223344`
appears *first* but is pushed again *last*, so the source's pre-seed list
(sorted by the overwritten push counter) is `[0x11223344, 0x55667788]`,
while the first-appearance order the claim describes would give
`[0x55667788, 0x11223344]`. -/
theorem C6_counterexample :
    (let hex : String :=
      ⟨['1', '1', '2', '2', '3', '3', '4', '4'] ++ List.replicate 56 '0' ++
        ['5', '5', '6', '6', '7', '7', '8', '8'] ++ List.replicate 56 '0' ++
        ['5', '5', '6', '6', '7', '7', '8', '8'] ++ List.replicate 56 '0' ++
        ['1', '1', '2', '2', '3', '3', '4', '4']⟩
     let st := (jitPass1 hex).1
     preseedEntries st = [0x11223344, 0x55667788] ∧
       preseedEntriesFirst st = [0x55667788, 0x11223344] ∧
       preseedEntries st ≠ preseedEntriesFirst st) := by
  decide

set_option maxRecDepth 100000 in
theorem C6_preseed_characterisation_witness :
    (let hex : String :=
      ⟨['1', '1', '2', '2', '3', '3', '4', '4'] ++ List.replicate 56 '0' ++
        ['5', '5', '6', '6', '7', '7', '8', '8'] ++ List.replicate 56 '0' ++
        ['5', '5', '6', '6', '7', '7', '8', '8'] ++ List.replicate 56 '0' ++
        ['1', '1', '2', '2', '3', '3', '4', '4']⟩
     let st := (jitPass1 hex).1
     (preseedEntries st).length < 15 ∧
       ((0x11223344 : Nat), (2 : Int)) ∈ st.stackFreq ∧
       (0x11223344 : Nat) ∈ preseedEntries st) := by
  refine ⟨by decide, by decide, ?_⟩
  exact (C6_preseed_characterisation _).2.2.2 (by decide) (0x11223344, 2) (by decide)
    (by decide) (by decide) (by decide) (by decide) (by decide)

end EthCompress

namespace EthCompress

/-! ## First-minimum selection -/

theorem foldl_min_le : ∀ (l : List (Nat × List PlanStep)) (init : Nat × List PlanStep),
    (l.foldl (fun best x => if x.1 < best.1 then x else best) init).1 ≤ init.1 ∧
    ∀ c ∈ l, (l.foldl (fun best x => if x.1 < best.1 then x else best) init).1 ≤ c.1 := by
  intro l
  induction l with
  | nil => intro init; exact ⟨le_refl _, fun c hc => absurd hc (List.not_mem_nil c)⟩
  | cons x xs ih =>
    intro init
    simp only [List.foldl_cons]
    have h := ih (if x.1 < init.1 then x else init)
    constructor
    · refine le_trans h.1 ?_
      split_ifs with hx
      · omega
      · exact le_refl _
    · intro c hc
      rcases List.mem_cons.mp hc with rfl | hc
      · refine le_trans h.1 ?_
        split_ifs with hx
        · exact le_refl _
        · omega
      · exact h.2 c hc

theorem argminFirst_le {l : List (Nat × List PlanStep)} {c : Nat × List PlanStep}
    (hc : c ∈ l) : (argminFirst l).1 ≤ c.1 := by
  rcases l with _ | ⟨hd, tl⟩
  · exact absurd hc (List.not_mem_nil c)
  · rcases List.mem_cons.mp hc with rfl | hc
    · exact (foldl_min_le tl c).1
    · exact (foldl_min_le tl hd).2 c hc

theorem foldl_min_map_addTail (base : Nat) :
    ∀ (tl : List (Nat × List PlanStep)) (hd : Nat × List PlanStep),
      List.foldl (fun best x => if x.1 < best.1 then x else best) (addTail base hd)
          (tl.map (addTail base)) =
        addTail base (List.foldl (fun best x => if x.1 < best.1 then x else best) hd tl) := by
  intro tl
  induction tl with
  | nil => intro hd; rfl
  | cons x tl ih =>
    intro hd
    simp only [List.map_cons, List.foldl_cons]
    have hx : (if (addTail base x).1 < (addTail base hd).1 then addTail base x
        else addTail base hd) = addTail base (if x.1 < hd.1 then x else hd) := by
      rw [apply_ite (addTail base)]
      rfl
    rw [hx]
    exact ih _

theorem bestOf_eq_argminFirst (lv : Nat) (literal : List Nat) :
    bestOf lv literal = argminFirst (chainCandidates lv literal) := by
  unfold bestOf chainCandidates argminFirst
  dsimp only
  rw [List.foldl_cons, List.foldl_cons, List.foldl_append, List.foldl_map]
  rcases hse : seFind lv literal.length with _ | nb <;> simp only [hse] <;> rfl

end EthCompress

namespace EthCompress

theorem argminFirst_cons (hd : Nat × List PlanStep) (tl : List (Nat × List PlanStep)) :
    argminFirst (hd :: tl) =
      List.foldl (fun best x => if x.1 < best.1 then x else best) hd tl := rfl

theorem argminFirst_wordCandidates (base : Nat) (word : List Nat) :
    argminFirst (wordCandidates base word) =
      (let A := addTail base
        (bestOf (beVal (word.drop ((scanSegs word).headD (0, 0)).1))
          (word.drop ((scanSegs word).headD (0, 0)).1))
       let B := if ((scanSegs word).all fun p => decide (p.1 = p.2)) = true then
           (if (scanSegs word).length * 3 < A.1 then
             ((scanSegs word).length * 3, mstore8Steps base word (scanSegs word)) else A)
         else A
       if estShlCost (scanSegs word) < B.1 then
         (estShlCost (scanSegs word),
           shlOrSteps word (scanSegs word) ++ [PlanStep.num (.num base), PlanStep.op 0x52])
       else B) := by
  unfold wordCandidates
  dsimp only
  rcases hct : chainCandidates (beVal (word.drop ((scanSegs word).headD (0, 0)).1))
      (word.drop ((scanSegs word).headD (0, 0)).1) with _ | ⟨hd, tl⟩
  · exact absurd hct (by simp [chainCandidates])
  · rw [List.map_cons, List.cons_append, List.cons_append, argminFirst_cons,
      List.foldl_append, List.foldl_append, foldl_min_map_addTail]
    have hb := bestOf_eq_argminFirst
      (beVal (word.drop ((scanSegs word).headD (0, 0)).1))
      (word.drop ((scanSegs word).headD (0, 0)).1)
    rw [hb, hct]
    by_cases hb8 : ((scanSegs word).all fun p => decide (p.1 = p.2)) = true
    · rw [if_pos hb8, if_pos hb8]
      rfl
    · rw [if_neg hb8, if_neg hb8]
      rfl

end EthCompress

namespace EthCompress

/-- **C8** (corrected).  In the non-reuse path (word not all-zero, combined
literal not already a reserved stack constant, and no word-cache hit), the
planner picks the first minimum-cost candidate among the strategies it
actually compares, in the order literal, NOT, SUB, SIGNEXTEND, SHIFT+NOT,
MSTORE8-per-byte, SHL/OR — so earlier families win ties (the peephole chain
beats SHL/OR and MSTORE8 on equal cost, and MSTORE8 beats SHL/OR on equal
cost, the opposite of the claimed tie order) — and the chosen cost is
minimal among those candidates.  A word-reuse cache hit, by contrast, is
taken against the literal estimate alone, without this comparison. -/
theorem C8_cost_minimality (hex : String) (caches : PlanCaches) (base : Nat)
    (word : List Nat)
    (hseg : ¬(scanSegs word).isEmpty = true)
    (hins : ¬(beVal (word.drop ((scanSegs word).headD (0, 0)).1) = 1 ∨
      beVal (word.drop ((scanSegs word).headD (0, 0)).1) = 32 ∨
      beVal (word.drop ((scanSegs word).headD (0, 0)).1) = 224))
    (hhit : ¬(1 + (word.drop ((scanSegs word).headD (0, 0)).1).length > 8 ∧
      mapHas caches.wordCache (_uint8ArrayToHex word) = true ∧
      ((1 + (word.drop ((scanSegs word).headD (0, 0)).1).length : Nat) : Int) >
        (mapGet? caches.wordCacheCost (_uint8ArrayToHex word)).getD 0 +
          (baseBytesOf base : Int))) :
    (wordPlanSteps hex caches base word).1 =
      (argminFirst (wordCandidates base word)).2 ∧
    ∀ c ∈ wordCandidates base word, (argminFirst (wordCandidates base word)).1 ≤ c.1 := by
  constructor
  · unfold wordPlanSteps
    dsimp only
    rw [if_neg hseg, if_neg hins, if_neg hhit]
    rw [apply_ite Prod.fst, apply_ite Prod.fst]
    dsimp only
    rw [argminFirst_wordCandidates]
    dsimp only
    rw [show (addTail base
        (bestOf (beVal (word.drop ((scanSegs word).headD (0, 0)).1))
          (word.drop ((scanSegs word).headD (0, 0)).1))).1 =
      (bestOf (beVal (word.drop ((scanSegs word).headD (0, 0)).1))
        (word.drop ((scanSegs word).headD (0, 0)).1)).1 from rfl]
    by_cases hb8 : ((scanSegs word).all fun p => decide (p.1 = p.2)) = true
    · rw [if_pos hb8]
      by_cases hm : (scanSegs word).length * 3 <
          (bestOf (beVal (word.drop ((scanSegs word).headD (0, 0)).1))
            (word.drop ((scanSegs word).headD (0, 0)).1)).1
      · by_cases hbs : (scanSegs word).length * 3 ≤ estShlCost (scanSegs word)
        · rw [if_pos ⟨hb8, hm, hbs⟩, if_pos hm, if_neg (by omega)]
        · rw [if_neg (fun h => hbs h.2.2), if_pos (by omega), if_pos hm,
            if_pos (by omega)]
      · by_cases hs : estShlCost (scanSegs word) <
            (bestOf (beVal (word.drop ((scanSegs word).headD (0, 0)).1))
              (word.drop ((scanSegs word).headD (0, 0)).1)).1
        · rw [if_neg (fun h => hm h.2.1), if_neg hm,
            show (addTail base
                (bestOf (beVal (word.drop ((scanSegs word).headD (0, 0)).1))
                  (word.drop ((scanSegs word).headD (0, 0)).1))).1 =
              (bestOf (beVal (word.drop ((scanSegs word).headD (0, 0)).1))
                (word.drop ((scanSegs word).headD (0, 0)).1)).1 from rfl,
            if_pos hs, if_pos hs]
        · rw [if_neg (fun h => hm h.2.1), if_neg hm,
            show (addTail base
                (bestOf (beVal (word.drop ((scanSegs word).headD (0, 0)).1))
                  (word.drop ((scanSegs word).headD (0, 0)).1))).1 =
              (bestOf (beVal (word.drop ((scanSegs word).headD (0, 0)).1))
                (word.drop ((scanSegs word).headD (0, 0)).1)).1 from rfl,
            if_neg hs, if_neg hs]
          rfl
    · rw [if_neg hb8,
        show (addTail base
            (bestOf (beVal (word.drop ((scanSegs word).headD (0, 0)).1))
              (word.drop ((scanSegs word).headD (0, 0)).1))).1 =
          (bestOf (beVal (word.drop ((scanSegs word).headD (0, 0)).1))
            (word.drop ((scanSegs word).headD (0, 0)).1)).1 from rfl]
      by_cases hs : estShlCost (scanSegs word) <
          (bestOf (beVal (word.drop ((scanSegs word).headD (0, 0)).1))
            (word.drop ((scanSegs word).headD (0, 0)).1)).1
      · rw [if_neg (fun h => hb8 h.1), if_pos hs, if_pos hs]
      · rw [if_neg (fun h => hb8 h.1), if_neg hs, if_neg hs]
        rfl
  · exact fun c hc => argminFirst_le hc

end EthCompress

namespace EthCompress

set_option maxRecDepth 100000 in
/-- **C8**, counterexample to the original claim: the second sighting of a
costly word takes the word-reuse path against the literal estimate alone.
Here the planner itself chose MSTORE8 (3 bytes) for the same word at its
first sighting, yet plans the second occurrence as MLOAD-reuse although the
considered MSTORE8 strategy (3 bytes) is strictly cheaper than even the
planner's own reuse estimate (5 bytes) — the chosen strategy is not
minimum-cost among the considered strategies. -/
theorem C8_counterexample :
    (let hex : String := ⟨List.replicate 56 '0' ++ ['a', 'a'] ++
       List.replicate 62 '0' ++ ['a', 'a'] ++ List.replicate 14 '0'⟩
     let buf : List Nat := List.replicate 28 0 ++ hexBytes hex
     let word : List Nat := ((wordsOf buf).getD 1 (0, [])).2
     let caches0 : PlanCaches := { wordCache := [], wordCacheCost := [] }
     let caches1 := (wordPlanSteps hex caches0 32 word).2
     (wordPlanSteps hex caches0 32 word).1 =
       [.num (.num 0xaa), .num (.num 56), .op 0x53] ∧
       (wordPlanSteps hex caches1 64 word).1 =
         [.num (.num 32), .op 0x51, .num (.num 64), .op 0x52] ∧
       ((scanSegs word).all fun p => decide (p.1 = p.2)) = true ∧
       ((scanSegs word).length * 3, mstore8Steps 64 word (scanSegs word)) ∈
         wordCandidates 64 word ∧
       (scanSegs word).length * 3 = 3 ∧
       (mapGet? caches1.wordCacheCost (_uint8ArrayToHex word)).getD 0 +
         (baseBytesOf 64 : Int) = 5 ∧
       ((3 : Int) < 5)) := by
  decide

set_option maxRecDepth 100000 in
theorem C8_cost_minimality_witness :
    (let word : List Nat := List.replicate 24 0 ++ 0xaa :: List.replicate 7 0
     let caches : PlanCaches := { wordCache := [], wordCacheCost := [] }
     (¬(scanSegs word).isEmpty = true) ∧
       (wordPlanSteps ⟨[]⟩ caches 32 word).1 =
         (argminFirst (wordCandidates 32 word)).2 ∧
       ∀ c ∈ wordCandidates 32 word,
         (argminFirst (wordCandidates 32 word)).1 ≤ c.1) := by
  dsimp only
  refine ⟨by decide,
    (C8_cost_minimality ⟨[]⟩ { wordCache := [], wordCacheCost := [] } 32
      (List.replicate 24 0 ++ 0xaa :: List.replicate 7 0)
      (by decide) (by decide) (by decide)).1,
    (C8_cost_minimality ⟨[]⟩ { wordCache := [], wordCacheCost := [] } 32
      (List.replicate 24 0 ++ 0xaa :: List.replicate 7 0)
      (by decide) (by decide) (by decide)).2⟩

end EthCompress

namespace EthCompress

theorem findIdx?_lt_length_aux {α : Type} (p : α → Bool) :
    ∀ (l : List α) (s i : Nat), List.findIdx? p l s = some i → i < s + l.length := by
  intro l
  induction l with
  | nil => intro s i h; simp [List.findIdx?] at h
  | cons x xs ih =>
    intro s i h
    rw [List.findIdx?_cons] at h
    by_cases hp : p x
    · rw [if_pos hp] at h
      injection h with h
      subst h
      simp only [List.length_cons]
      omega
    · rw [if_neg hp] at h
      have := ih (s + 1) i h
      simp only [List.length_cons]
      omega

theorem findIdx?_lt_length {α : Type} (p : α → Bool) (l : List α) (i : Nat)
    (h : l.findIdx? p = some i) : i < l.length := by
  have := findIdx?_lt_length_aux p l 0 i h
  omega

theorem getStackIdx_lt_length {stack : List Nat} {v idx : Nat}
    (h : getStackIdx stack v = some idx) : idx < stack.length := by
  unfold getStackIdx at h
  rcases hf : stack.findIdx? (fun x => decide (x = v)) with _ | i
  · rw [hf] at h; cases h
  · rw [hf] at h
    dsimp only at h
    split_ifs at h
    injection h with h
    subst h
    exact findIdx?_lt_length _ stack _ hf

theorem evmStep_push_range (ctx : EvmCtx) (es : EvmState) (op : Nat)
    (imm : Option (List Nat)) (h : 0x60 ≤ op ∧ op ≤ 0x7f) :
    evmStep ctx es ⟨op, imm⟩ =
      some (.inl { es with stack := beVal (imm.getD []) :: es.stack }) := by
  unfold evmStep
  dsimp only
  rw [if_neg (by omega : ¬op = 0x03), if_neg (by omega : ¬op = 0x0b),
    if_neg (by omega : ¬op = 0x16), if_neg (by omega : ¬op = 0x17),
    if_neg (by omega : ¬op = 0x18), if_neg (by omega : ¬op = 0x19),
    if_neg (by omega : ¬op = 0x1b), if_neg (by omega : ¬op = 0x1c),
    if_neg (by omega : ¬op = 0x30), if_neg (by omega : ¬op = 0x34),
    if_neg (by omega : ¬op = 0x35), if_neg (by omega : ¬op = 0x36),
    if_neg (by omega : ¬op = 0x37), if_neg (by omega : ¬op = 0x3d),
    if_neg (by omega : ¬op = 0x3e), if_neg (by omega : ¬op = 0x51),
    if_neg (by omega : ¬op = 0x52), if_neg (by omega : ¬op = 0x53),
    if_neg (by omega : ¬op = 0x59), if_neg (by omega : ¬op = 0x5a),
    if_neg (by omega : ¬op = 0x5f), if_pos h]

theorem evmStep_dup (ctx : EvmCtx) (es : EvmState) (op : Nat)
    (h : 0x80 ≤ op ∧ op ≤ 0x8f) :
    evmStep ctx es ⟨op, none⟩ =
      (match es.stack.get? (op - 0x80) with
        | some v => some (.inl { es with stack := v :: es.stack })
        | none => none) := by
  unfold evmStep
  dsimp only
  rw [if_neg (by omega : ¬op = 0x03), if_neg (by omega : ¬op = 0x0b),
    if_neg (by omega : ¬op = 0x16), if_neg (by omega : ¬op = 0x17),
    if_neg (by omega : ¬op = 0x18), if_neg (by omega : ¬op = 0x19),
    if_neg (by omega : ¬op = 0x1b), if_neg (by omega : ¬op = 0x1c),
    if_neg (by omega : ¬op = 0x30), if_neg (by omega : ¬op = 0x34),
    if_neg (by omega : ¬op = 0x35), if_neg (by omega : ¬op = 0x36),
    if_neg (by omega : ¬op = 0x37), if_neg (by omega : ¬op = 0x3d),
    if_neg (by omega : ¬op = 0x3e), if_neg (by omega : ¬op = 0x51),
    if_neg (by omega : ¬op = 0x52), if_neg (by omega : ¬op = 0x53),
    if_neg (by omega : ¬op = 0x59), if_neg (by omega : ¬op = 0x5a),
    if_neg (by omega : ¬op = 0x5f), if_neg (by omega : ¬(0x60 ≤ op ∧ op ≤ 0x7f)),
    if_pos h]

theorem runStraight_append (ctx : EvmCtx) :
    ∀ (l1 l2 : List Instr) (es : EvmState),
      runStraight ctx es (l1 ++ l2) =
        match runStraight ctx es l1 with
        | some es2 => runStraight ctx es2 l2
        | none => none := by
  intro l1
  induction l1 with
  | nil => intro l2 es; rfl
  | cons i l1 ih =>
    intro l2 es
    rw [show runStraight ctx es ((i :: l1) ++ l2) = (match evmStep ctx es i with
      | some (.inl st2) => runStraight ctx st2 (l1 ++ l2)
      | _ => none) from rfl]
    rw [show runStraight ctx es (i :: l1) = (match evmStep ctx es i with
      | some (.inl st2) => runStraight ctx st2 l1
      | _ => none) from rfl]
    rcases evmStep ctx es i with _ | r
    · rfl
    · rcases r with st2 | bytes
      · exact ih l2 st2
      · rfl

end EthCompress

namespace EthCompress

theorem addOpPush_sim (ctx : EvmCtx) {st : EmitState} {es : EvmState} (op : Nat)
    (imm : Option (List Nat)) (hop : (0x60 ≤ op ∧ op ≤ 0x7f) ∨ op = 0x5f)
    (hlen : es.stack.length = st.stack.length) :
    ∃ Δ es2, (addOpPush st op imm).code = st.code ++ Δ ∧
      runStraight ctx es Δ = some es2 ∧
      es2.stack.length = st.stack.length + 1 ∧
      (addOpPush st op imm).stack.length = st.stack.length + 1 := by
  unfold addOpPush
  dsimp only
  by_cases h224 : beVal (imm.getD []) = 224
  · rw [if_pos h224]
    refine ⟨[⟨0x30, none⟩], { es with stack := ctx.address :: es.stack }, rfl, rfl, ?_, ?_⟩
    · simp only [List.length_cons]
      omega
    · show (beVal (imm.getD []) :: st.stack).length = st.stack.length + 1
      simp
  rw [if_neg h224]
  by_cases h32 : beVal (imm.getD []) = 32
  · rw [if_pos h32]
    refine ⟨[⟨0x36, none⟩], { es with stack := ctx.calldata.length :: es.stack },
      rfl, rfl, ?_, ?_⟩
    · simp only [List.length_cons]
      omega
    · show (beVal (imm.getD []) :: st.stack).length = st.stack.length + 1
      simp
  rw [if_neg h32]
  by_cases htms : beVal (imm.getD []) = st.trackedMemSize
  · rw [if_pos htms]
    refine ⟨[⟨0x59, none⟩], { es with stack := es.mem.length :: es.stack },
      rfl, rfl, ?_, ?_⟩
    · simp only [List.length_cons]
      omega
    · show (beVal (imm.getD []) :: st.stack).length = st.stack.length + 1
      simp
  rw [if_neg htms]
  rcases hidx : getStackIdx st.stack (beVal (imm.getD [])) with _ | idx
  · simp only [hidx]
    by_cases hmax : beVal (imm.getD []) = MAX_256_BIT
    · rw [if_pos hmax]
      refine ⟨[⟨0x5f, none⟩, ⟨0x19, none⟩], { es with stack := notW 0 :: es.stack },
        by simp, rfl, ?_, ?_⟩
      · simp only [List.length_cons]
        omega
      · show (beVal (imm.getD []) :: st.stack).length = st.stack.length + 1
        simp
    · rw [if_neg hmax]
      by_cases hop5 : op = 0x5f
      · subst hop5
        refine ⟨[⟨0x5f, imm⟩], { es with stack := 0 :: es.stack }, rfl, rfl, ?_, ?_⟩
        · simp only [List.length_cons]
          omega
        · show (beVal (imm.getD []) :: st.stack).length = st.stack.length + 1
          simp
      · have hr : 0x60 ≤ op ∧ op ≤ 0x7f := by
          rcases hop with h | h
          · exact h
          · exact absurd h hop5
        refine ⟨[⟨op, imm⟩], { es with stack := beVal (imm.getD []) :: es.stack },
          rfl, ?_, ?_, ?_⟩
        · show (match evmStep ctx es ⟨op, imm⟩ with
            | some (.inl st2) => runStraight ctx st2 []
            | _ => none) = _
          rw [evmStep_push_range ctx es op imm hr]
          rfl
        · simp only [List.length_cons]
          omega
        · show (beVal (imm.getD []) :: st.stack).length = st.stack.length + 1
          simp
  · simp only [hidx]
    have hlt : idx < st.stack.length := getStackIdx_lt_length hidx
    have hle : idx ≤ 15 := getStackIdx_le15 hidx
    by_cases hop5 : op ≠ 0x5f
    · rw [if_pos hop5]
      rcases hget : es.stack.get? idx with _ | v
      · exact absurd (List.get?_eq_none.mp hget) (by omega)
      · refine ⟨[⟨0x80 + idx, none⟩], { es with stack := v :: es.stack }, rfl, ?_, ?_, ?_⟩
        · show (match evmStep ctx es ⟨0x80 + idx, none⟩ with
            | some (.inl st2) => runStraight ctx st2 []
            | _ => none) = _
          rw [evmStep_dup ctx es (0x80 + idx) (by omega)]
          rw [show (0x80 + idx) - 0x80 = idx by omega]
          rw [hget]
          rfl
        · simp only [List.length_cons]
          omega
        · show (beVal (imm.getD []) :: st.stack).length = st.stack.length + 1
          simp
    · rw [if_neg hop5]
      by_cases hmax : beVal (imm.getD []) = MAX_256_BIT
      · rw [if_pos hmax]
        refine ⟨[⟨0x5f, none⟩, ⟨0x19, none⟩], { es with stack := notW 0 :: es.stack },
          by simp, rfl, ?_, ?_⟩
        · simp only [List.length_cons]
          omega
        · show (beVal (imm.getD []) :: st.stack).length = st.stack.length + 1
          simp
      · rw [if_neg hmax]
        have hop5' : op = 0x5f := by
          rcases hop with h | h
          · exact absurd (fun he => by omega) hop5
          · exact h
        subst hop5'
        refine ⟨[⟨0x5f, imm⟩], { es with stack := 0 :: es.stack }, rfl, rfl, ?_, ?_⟩
        · simp only [List.length_cons]
          omega
        · show (beVal (imm.getD []) :: st.stack).length = st.stack.length + 1
          simp

end EthCompress

namespace EthCompress

theorem applyCall_sim (ctx : EvmCtx) {st : EmitState} {es : EvmState} (c : EmitCall)
    (hok : callOk st c) (hlen : es.stack.length = st.stack.length) :
    ∃ Δ es2, (applyCall st c).code = st.code ++ Δ ∧
      runStraight ctx es Δ = some es2 ∧
      es2.stack.length = (applyCall st c).stack.length := by
  obtain ⟨stk, mm, rt⟩ := es
  dsimp only at hlen
  cases c with
  | pushNum v =>
    have hv : v.val < M256 := hok
    show ∃ d es2, (pushN st v).code = st.code ++ d ∧
      runStraight ctx ⟨stk, mm, rt⟩ d = some es2 ∧
      es2.stack.length = (pushN st v).stack.length
    unfold pushN
    split_ifs with h1 h2 h3
    · refine ⟨[⟨0x59, none⟩], ⟨mm.length :: stk, mm, rt⟩, rfl, rfl, ?_⟩
      show (mm.length :: stk).length = (st.trackedMemSize :: st.stack).length
      simp only [List.length_cons]
      omega
    · refine ⟨[⟨0x36, none⟩], ⟨ctx.calldata.length :: stk, mm, rt⟩, rfl, rfl, ?_⟩
      show (ctx.calldata.length :: stk).length = ((32 : Nat) :: st.stack).length
      simp only [List.length_cons]
      omega
    · rw [addOp_push st 0x5f none (Or.inr rfl)]
      obtain ⟨d, es2, hc, hr, hl1, hl2⟩ :=
        @addOpPush_sim ctx st ⟨stk, mm, rt⟩ 0x5f none (Or.inr rfl) hlen
      exact ⟨d, es2, hc, hr, by omega⟩
    · have hlenb : (toBytesBE v.val).length ≤ 32 := by
        refine toBytesBE_length_le (by omega) ?_
        have h256 : (256 : Nat) ^ 32 = M256 := by decide
        omega
      have hpos : 0 < (toBytesBE v.val).length := toBytesBE_length_pos h3
      rw [addOp_push _ _ _ (Or.inl (by omega))]
      obtain ⟨d, es2, hc, hr, hl1, hl2⟩ :=
        @addOpPush_sim ctx st ⟨stk, mm, rt⟩ (0x5f + (toBytesBE v.val).length)
          (some (toBytesBE v.val)) (Or.inl (by omega)) hlen
      exact ⟨d, es2, hc, hr, by omega⟩
  | pushBytes b =>
    obtain ⟨hbp, hble⟩ := hok
    show ∃ d es2, (pushB st b).code = st.code ++ d ∧
      runStraight ctx ⟨stk, mm, rt⟩ d = some es2 ∧
      es2.stack.length = (pushB st b).stack.length
    unfold pushB
    rw [addOp_push _ _ _ (Or.inl (by omega))]
    obtain ⟨d, es2, hc, hr, hl1, hl2⟩ :=
      @addOpPush_sim ctx st ⟨stk, mm, rt⟩ (0x5f + b.length) (some b)
        (Or.inl (by omega)) hlen
    exact ⟨d, es2, hc, hr, by omega⟩
  | callOp o =>
    obtain ⟨ho, har⟩ := hok
    fin_cases ho
    · -- 0x36 CALLDATASIZE
      refine ⟨[⟨0x36, none⟩], ⟨ctx.calldata.length :: stk, mm, rt⟩, rfl, rfl, ?_⟩
      show (ctx.calldata.length :: stk).length = ((32 : Nat) :: st.stack).length
      simp only [List.length_cons]
      omega
    · -- 0x59 MSIZE
      refine ⟨[⟨0x59, none⟩], ⟨mm.length :: stk, mm, rt⟩, rfl, rfl, ?_⟩
      show (mm.length :: stk).length = (st.trackedMemSize :: st.stack).length
      simp only [List.length_cons]
      omega
    · -- 0x03 SUB
      have h2 : 2 ≤ st.stack.length := har
      rcases stk with _ | ⟨a, stk1⟩
      · exfalso; simp only [List.length_nil] at hlen; omega
      rcases stk1 with _ | ⟨b, stk2⟩
      · exfalso; simp only [List.length_cons, List.length_nil] at hlen; omega
      refine ⟨[⟨0x03, none⟩], ⟨subW a b :: stk2, mm, rt⟩, rfl, rfl, ?_⟩
      show (subW a b :: stk2).length =
        (subW (st.stack.headD 0) (st.stack.tail.headD 0) :: st.stack.tail.tail).length
      simp only [List.length_cons, List.length_tail] at hlen ⊢
      omega
    · -- 0x0b SIGNEXTEND
      have h2 : 2 ≤ st.stack.length := har
      rcases stk with _ | ⟨a, stk1⟩
      · exfalso; simp only [List.length_nil] at hlen; omega
      rcases stk1 with _ | ⟨b, stk2⟩
      · exfalso; simp only [List.length_cons, List.length_nil] at hlen; omega
      refine ⟨[⟨0x0b, none⟩], ⟨sigextW a b :: stk2, mm, rt⟩, rfl, rfl, ?_⟩
      show (sigextW a b :: stk2).length =
        (sigextW (st.stack.headD 0) (st.stack.tail.headD 0) :: st.stack.tail.tail).length
      simp only [List.length_cons, List.length_tail] at hlen ⊢
      omega
    · -- 0x16 AND
      have h2 : 2 ≤ st.stack.length := har
      rcases stk with _ | ⟨a, stk1⟩
      · exfalso; simp only [List.length_nil] at hlen; omega
      rcases stk1 with _ | ⟨b, stk2⟩
      · exfalso; simp only [List.length_cons, List.length_nil] at hlen; omega
      refine ⟨[⟨0x16, none⟩], ⟨andW a b :: stk2, mm, rt⟩, rfl, rfl, ?_⟩
      show (andW a b :: stk2).length =
        (andW (st.stack.headD 0) (st.stack.tail.headD 0) :: st.stack.tail.tail).length
      simp only [List.length_cons, List.length_tail] at hlen ⊢
      omega
    · -- 0x17 OR
      have h2 : 2 ≤ st.stack.length := har
      rcases stk with _ | ⟨a, stk1⟩
      · exfalso; simp only [List.length_nil] at hlen; omega
      rcases stk1 with _ | ⟨b, stk2⟩
      · exfalso; simp only [List.length_cons, List.length_nil] at hlen; omega
      refine ⟨[⟨0x17, none⟩], ⟨orW a b :: stk2, mm, rt⟩, rfl, rfl, ?_⟩
      show (orW a b :: stk2).length =
        (orW (st.stack.headD 0) (st.stack.tail.headD 0) :: st.stack.tail.tail).length
      simp only [List.length_cons, List.length_tail] at hlen ⊢
      omega
    · -- 0x18 XOR
      have h2 : 2 ≤ st.stack.length := har
      rcases stk with _ | ⟨a, stk1⟩
      · exfalso; simp only [List.length_nil] at hlen; omega
      rcases stk1 with _ | ⟨b, stk2⟩
      · exfalso; simp only [List.length_cons, List.length_nil] at hlen; omega
      refine ⟨[⟨0x18, none⟩], ⟨xorW a b :: stk2, mm, rt⟩, rfl, rfl, ?_⟩
      show (xorW a b :: stk2).length =
        (xorW (st.stack.headD 0) (st.stack.tail.headD 0) :: st.stack.tail.tail).length
      simp only [List.length_cons, List.length_tail] at hlen ⊢
      omega
    · -- 0x19 NOT
      have h1 : 1 ≤ st.stack.length := har
      rcases stk with _ | ⟨a, stk1⟩
      · exfalso; simp only [List.length_nil] at hlen; omega
      refine ⟨[⟨0x19, none⟩], ⟨notW a :: stk1, mm, rt⟩, rfl, rfl, ?_⟩
      show (notW a :: stk1).length = (notW (st.stack.headD 0) :: st.stack.tail).length
      simp only [List.length_cons, List.length_tail] at hlen ⊢
      omega
    · -- 0x1b SHL
      have h2 : 2 ≤ st.stack.length := har
      rcases stk with _ | ⟨a, stk1⟩
      · exfalso; simp only [List.length_nil] at hlen; omega
      rcases stk1 with _ | ⟨b, stk2⟩
      · exfalso; simp only [List.length_cons, List.length_nil] at hlen; omega
      refine ⟨[⟨0x1b, none⟩], ⟨shlW a b :: stk2, mm, rt⟩, rfl, rfl, ?_⟩
      show (shlW a b :: stk2).length =
        (shlW (st.stack.headD 0) (st.stack.tail.headD 0) :: st.stack.tail.tail).length
      simp only [List.length_cons, List.length_tail] at hlen ⊢
      omega
    · -- 0x1c SHR
      have h2 : 2 ≤ st.stack.length := har
      rcases stk with _ | ⟨a, stk1⟩
      · exfalso; simp only [List.length_nil] at hlen; omega
      rcases stk1 with _ | ⟨b, stk2⟩
      · exfalso; simp only [List.length_cons, List.length_nil] at hlen; omega
      refine ⟨[⟨0x1c, none⟩], ⟨shrW a b :: stk2, mm, rt⟩, rfl, rfl, ?_⟩
      show (shrW a b :: stk2).length =
        (shrW (st.stack.headD 0) (st.stack.tail.headD 0) :: st.stack.tail.tail).length
      simp only [List.length_cons, List.length_tail] at hlen ⊢
      omega
    · -- 0x51 MLOAD
      have h1 : 1 ≤ st.stack.length := har
      rcases stk with _ | ⟨a, stk1⟩
      · exfalso; simp only [List.length_nil] at hlen; omega
      refine ⟨[⟨0x51, none⟩],
        ⟨beVal (memRead (memGrow mm (a + 32)) a 32) :: stk1, memGrow mm (a + 32), rt⟩,
        rfl, rfl, ?_⟩
      show (beVal (memRead (memGrow mm (a + 32)) a 32) :: stk1).length =
        ((mapGet? ({ st with stack := st.stack.tail } : EmitState).mem
          (st.stack.headD 0)).getD 0 :: st.stack.tail).length
      simp only [List.length_cons, List.length_tail] at hlen ⊢
      omega
    · -- 0x52 MSTORE
      have h2 : 2 ≤ st.stack.length := har
      rcases stk with _ | ⟨a, stk1⟩
      · exfalso; simp only [List.length_nil] at hlen; omega
      rcases stk1 with _ | ⟨b, stk2⟩
      · exfalso; simp only [List.length_cons, List.length_nil] at hlen; omega
      refine ⟨[⟨0x52, none⟩], ⟨stk2, memWrite mm a (beBytes 32 b), rt⟩, rfl, rfl, ?_⟩
      show stk2.length = st.stack.tail.tail.length
      simp only [List.length_cons] at hlen
      simp only [List.length_tail]
      omega
    · -- 0x53 MSTORE8
      have h2 : 2 ≤ st.stack.length := har
      rcases stk with _ | ⟨a, stk1⟩
      · exfalso; simp only [List.length_nil] at hlen; omega
      rcases stk1 with _ | ⟨b, stk2⟩
      · exfalso; simp only [List.length_cons, List.length_nil] at hlen; omega
      refine ⟨[⟨0x53, none⟩], ⟨stk2, memWrite mm a [b % 256], rt⟩, rfl, rfl, ?_⟩
      show stk2.length = st.stack.tail.tail.length
      simp only [List.length_cons] at hlen
      simp only [List.length_tail]
      omega

end EthCompress

namespace EthCompress

@[simp] theorem emit_tms (st : EmitState) (op : Nat) (imm : Option (List Nat)) :
    (emit st op imm).trackedMemSize = st.trackedMemSize := rfl

@[simp] theorem pushS_tms (st : EmitState) (v : Nat) (f : Int) :
    (pushS st v f).trackedMemSize = st.trackedMemSize := rfl

theorem addOpPush_tms (st : EmitState) (op : Nat) (imm : Option (List Nat)) :
    (addOpPush st op imm).trackedMemSize = st.trackedMemSize := by
  unfold addOpPush
  dsimp only
  repeat' split
  all_goals simp only [apply_ite EmitState.trackedMemSize, emit_tms, pushS_tms]

theorem addOp_tms_of_ge (st : EmitState) (op : Nat) (imm : Option (List Nat))
    (hop : 0x5f ≤ op) : (addOp st op imm).trackedMemSize = st.trackedMemSize := by
  unfold addOp
  rw [if_neg (by omega : ¬op = 0x36), if_neg (by omega : ¬op = 0x59),
    if_neg (by omega : ¬op = 0x0b), if_neg (by omega : ¬op = 0x19),
    if_neg (by omega : ¬op = 0x18), if_neg (by omega : ¬op = 0x16),
    if_neg (by omega : ¬op = 0x03), if_neg (by omega : ¬op = 0x1b),
    if_neg (by omega : ¬op = 0x1c), if_neg (by omega : ¬op = 0x17)]
  by_cases hr : (0x60 ≤ op ∧ op ≤ 0x7f) ∨ op = 0x5f
  · rw [if_pos hr]
    exact addOpPush_tms st op imm
  · rw [if_neg hr, if_neg (by omega : ¬op = 0x51), if_neg (by omega : ¬op = 0x52),
      if_neg (by omega : ¬op = 0x53)]
    by_cases hf : op = 0xf3
    · rw [if_pos hf]
      rfl
    · rw [if_neg hf]
      rfl

theorem calls_sim (ctx : EvmCtx) : ∀ (calls : List EmitCall) (st : EmitState) (es : EvmState),
    callsOk st calls → es.stack.length = st.stack.length →
    ∃ d es2, (applyCalls st calls).code = st.code ++ d ∧
      runStraight ctx es d = some es2 ∧
      es2.stack.length = (applyCalls st calls).stack.length := by
  intro calls
  induction calls with
  | nil =>
    intro st es _ hlen
    exact ⟨[], es, (List.append_nil st.code).symm, rfl, hlen⟩
  | cons c cs ih =>
    intro st es hok hlen
    obtain ⟨d1, es1, hc1, hr1, hl1⟩ := applyCall_sim ctx c hok.1 hlen
    obtain ⟨d2, es2, hc2, hr2, hl2⟩ := ih (applyCall st c) es1 hok.2 hl1
    refine ⟨d1 ++ d2, es2, ?_, ?_, hl2⟩
    · show (applyCalls (applyCall st c) cs).code = _
      rw [hc2, hc1, List.append_assoc]
    · rw [runStraight_append, hr1]
      exact hr2

/-- **C9** (corrected).  For every sequence of emitter operations respecting
the emitter's preconditions, executing the emitted opcodes on the EVM
fragment succeeds and the EVM operand-stack height equals the symbolic
stack's height after every sequence.  The tracked memory size, however, is
*overwritten* per store — `MSTORE` at offset `k` sets it to
`roundUp32 (k + 32)` and `MSTORE8` at `k` to `roundUp32 (k + 1)`, while all
other tracked operations preserve it — so it is the rounded end of the
*last* store, not the maximum touched offset. -/
theorem C9_emitter_invariants :
    (∀ (ctx : EvmCtx) (calls : List EmitCall), callsOk initState calls →
      ∃ es : EvmState,
        runStraight ctx { stack := [], mem := [], ret := [] }
          (applyCalls initState calls).code = some es ∧
        es.stack.length = (applyCalls initState calls).stack.length) ∧
    (∀ st : EmitState,
      (opE st 0x52).trackedMemSize = roundUp32 (st.stack.headD 0 + 32) ∧
      (opE st 0x53).trackedMemSize = roundUp32 (st.stack.headD 0 + 1) ∧
      (∀ o ∈ ([0x36, 0x59, 0x03, 0x0b, 0x16, 0x17, 0x18, 0x19, 0x1b, 0x1c,
          0x51] : List Nat),
        (opE st o).trackedMemSize = st.trackedMemSize) ∧
      (∀ v : JsNum, (pushN st v).trackedMemSize = st.trackedMemSize) ∧
      (∀ b : List Nat, (pushB st b).trackedMemSize = st.trackedMemSize)) := by
  constructor
  · intro ctx calls hok
    obtain ⟨d, es2, hc, hr, hl⟩ := calls_sim ctx calls initState ⟨[], [], []⟩ hok rfl
    refine ⟨es2, ?_, hl⟩
    rw [hc, show initState.code = ([] : List Instr) from rfl, List.nil_append]
    exact hr
  · intro st
    refine ⟨rfl, rfl, ?_, ?_, ?_⟩
    · intro o ho
      fin_cases ho <;> rfl
    · intro v
      unfold pushN
      split_ifs
      · rfl
      · rfl
      · exact addOp_tms_of_ge st 0x5f none (by omega)
      · exact addOp_tms_of_ge st _ _ (by omega)
    · intro b
      unfold pushB
      exact addOp_tms_of_ge st _ _ (by omega)

set_option maxRecDepth 10000 in
/-- **C9**, counterexample to the original claim: after `MSTORE` at offset
64 followed by `MSTORE` at offset 0 the tracked high-water mark is 32,
while executing the emitted opcodes leaves the EVM memory size at 96 —
the maximum touched offset rounded up to 32, which the claim says the
tracked mark should equal. -/
theorem C9_counterexample :
    (let calls : List EmitCall := [.pushNum (.num 5), .pushNum (.num 64),
       .callOp 0x52, .pushNum (.num 7), .pushNum (.num 0), .callOp 0x52]
     let st := applyCalls initState calls
     callsOk initState calls ∧
       st.trackedMemSize = 32 ∧
       runStraight ⟨[], 0, 0, 0⟩ ⟨[], [], []⟩ st.code =
         some ⟨[], beBytes 32 7 ++ (List.replicate 32 0 ++ beBytes 32 5), []⟩ ∧
       (beBytes 32 7 ++ (List.replicate 32 0 ++ beBytes 32 5)).length = 96 ∧
       (32 : Nat) ≠ 96) := by
  exact ⟨by decide, by decide, by decide, by decide, by decide⟩

theorem C9_emitter_invariants_witness :
    callsOk initState [.pushNum (.num 1), .pushNum (.num 2), .callOp 0x03] ∧
    ∃ es : EvmState,
      runStraight ⟨[], 0, 0, 0⟩ ⟨[], [], []⟩
        (applyCalls initState
          [.pushNum (.num 1), .pushNum (.num 2), .callOp 0x03]).code = some es ∧
      es.stack.length =
        (applyCalls initState
          [.pushNum (.num 1), .pushNum (.num 2), .callOp 0x03]).stack.length :=
  ⟨by decide, C9_emitter_invariants.1 ⟨[], 0, 0, 0⟩ _ (by decide)⟩

end EthCompress
